import Mathlib

/-!
# Verification of the Icons8-Collector specification against its code

Shallow embedding of the Python sources of `nameIess/Icons8-Collector`
(packages `icons8_collector` and `src/icons8_collector`) in Lean 4,
together with proofs settling the frozen claims C1..C10.

Python strings are modelled as `List Char`, byte strings as `List Nat`
(each element < 256 where it matters).  Fallible code returns `Except`
or `Option`.
-/

deriving instance DecidableEq for Except

namespace Icons8

/-- Shorthand: Python strings are modelled as lists of characters. -/
def str (s : String) : List Char := s.toList

/-- `s.lower()` on the modelled string (ASCII case folding, as used by the
    code on URL hosts). -/
def lowerL (l : List Char) : List Char := l.map Char.toLower

/-! ## Error model (src/icons8_collector/exceptions.py)

Each exception class of the repository is one kind; an exception value
carries its (sanitized, see C8) message. -/

inductive ErrKind where
  | validation | download | conversion | configuration
  | authentication | scraping | browser
  deriving DecidableEq, Repr

structure CollectorErr where
  kind : ErrKind
  msg : List Char
  deriving DecidableEq, Repr

/-- `r.isOk` for the `Except`-modelled fallible calls. -/
def isOkE {α : Type} (r : Except CollectorErr α) : Bool :=
  match r with
  | .ok _ => true
  | .error _ => false

/-! ## URL parsing (model of Python `urllib.parse.urlparse`)

Modelled from the standard library the code calls: the scheme is the
(lowercased) part before the first colon when it is a well-formed scheme
token, the netloc follows a literal `//` and extends to the next `/`,
`?` or `#`, the fragment is split at the first `#` and the query at the
first `?` of the remainder. -/

structure ParsedUrl where
  scheme : List Char
  netloc : List Char
  path : List Char
  query : List Char
  deriving DecidableEq, Repr

/-- Python substring containment `pat in l`: some position of `l` starts
    with `pat`. -/
def containsSub (pat : List Char) (l : List Char) : Bool :=
  match l with
  | [] => pat.isPrefixOf ([] : List Char)
  | _ :: rest => pat.isPrefixOf l || containsSub pat rest

/-- Split a list at the first char satisfying `p` (dropping that char). -/
def breakAt (p : Char → Bool) : List Char → Option (List Char × List Char)
  | [] => none
  | c :: rest =>
    if p c then some ([], rest)
    else (breakAt p rest).map (fun ab => (c :: ab.1, ab.2))

/-- Characters allowed in a URL scheme after the initial letter. -/
def isSchemeChar (c : Char) : Bool :=
  c.isAlphanum || c = '+' || c = '-' || c = '.'

/-- The scheme split of `urlparse`: the part before the first colon when
    it is a well-formed scheme token (lowercased), and the remainder. -/
def urlSchemeSplit (url : List Char) : List Char × List Char :=
  match breakAt (fun c => c = ':') url with
  | some (pre, post) =>
    match pre with
    | [] => ([], url)
    | c :: cs =>
      if c.isAlpha && cs.all isSchemeChar then (lowerL (c :: cs), post)
      else ([], url)
  | none => ([], url)

/-- The netloc split of `urlparse`: after a leading `//`, the netloc
    runs to the next `/`, `?` or `#`. -/
def urlNetlocSplit (rest : List Char) : List Char × List Char :=
  match rest with
  | '/' :: '/' :: r =>
    (r.takeWhile (fun c => !(c = '/' || c = '?' || c = '#')),
     r.dropWhile (fun c => !(c = '/' || c = '?' || c = '#')))
  | r => ([], r)

def pyUrlparse (url : List Char) : ParsedUrl :=
  let sr := urlSchemeSplit url
  let nr := urlNetlocSplit sr.2
  let beforeFrag : List Char :=
    match breakAt (fun c => c = '#') nr.2 with
    | some (a, _) => a
    | none => nr.2
  let pathQuery : List Char × List Char :=
    match breakAt (fun c => c = '?') beforeFrag with
    | some (a, b) => (a, b)
    | none => (beforeFrag, [])
  ⟨sr.1, nr.1, pathQuery.1, pathQuery.2⟩

lemma pyUrlparse_scheme (url : List Char) :
    (pyUrlparse url).scheme = (urlSchemeSplit url).1 := rfl

lemma pyUrlparse_netloc (url : List Char) :
    (pyUrlparse url).netloc = (urlNetlocSplit (urlSchemeSplit url).2).1 := rfl

/-! ## URL validation (src/icons8_collector/downloader.py lines 22-51 and
     src/icons8_collector/client.py `Icons8URLs`) -/

def ALLOWED_DOMAINS : List (List Char) :=
  [str "icons8.com", str "img.icons8.com", str "maxst.icons8.com"]

def ALLOWED_SCHEMES : List (List Char) := [str "https"]

/-- The per-domain test of `validate_url` / `Icons8URLs.is_valid_domain`:
    the lowercased netloc equals an allowed domain or ends with
    a dot followed by an allowed domain. -/
def domainAllowed (domain : List Char) (allowed : List (List Char)) : Bool :=
  allowed.any (fun a => domain == a || List.isSuffixOf ('.' :: a) domain)

/-- `validate_url` (src/icons8_collector/downloader.py lines 22-51). -/
def validate_url (url : List Char) : Except CollectorErr Unit :=
  if url = [] then
    .error ⟨.validation, str "URL must be a non-empty string"⟩
  else
    let parsed := pyUrlparse url
    if parsed.scheme ∈ ALLOWED_SCHEMES then
      if domainAllowed (lowerL parsed.netloc) ALLOWED_DOMAINS then .ok ()
      else .error ⟨.validation,
        str "URL domain not allowed: " ++ lowerL parsed.netloc ++
          str ". Only Icons8 domains are permitted."⟩
    else
      .error ⟨.validation,
        str "Only HTTPS URLs are allowed. Got: " ++ parsed.scheme⟩

/-- The acceptance condition exactly as claim C2 words it: scheme is
    exactly https, and the lowercased host equals an allow-listed domain
    or ends with a dot followed by one. -/
def specAcceptsUrl (url : List Char) : Prop :=
  (pyUrlparse url).scheme = str "https" ∧
  ∃ d ∈ ALLOWED_DOMAINS,
    lowerL (pyUrlparse url).netloc = d ∨
    List.isSuffixOf ('.' :: d) (lowerL (pyUrlparse url).netloc)

/-! ## Converter size tables (src/src/icons8_collector/converter.py and
     src/icons8_collector/converter.py) -/

/-- `WIN_SIZES = [16, 32, 48, 64, 128, 256]` from src/src converter. -/
def WIN_SIZES : List Nat := [16, 32, 48, 64, 128, 256]

/-- `MAC_SIZES = [16, 32, 64, 128, 256, 512, 1024]` from src/src converter. -/
def MAC_SIZES : List Nat := [16, 32, 64, 128, 256, 512, 1024]

/-- The `ico_sizes` list of `convert_png_to_ico`
    (src/icons8_collector/converter.py line 108). -/
def ico_sizes : List (Nat × Nat) :=
  [(256, 256), (128, 128), (64, 64), (48, 48), (32, 32), (24, 24), (16, 16)]

/-- The layer-size selection of `convert_png_to_ico`
    (src/icons8_collector/converter.py lines 106-116): with
    `generate_layers` the standard sizes not exceeding the source image
    are kept, falling back to the source size when none remain. -/
def valid_sizes (width height : Nat) (generate_layers : Bool) : List (Nat × Nat) :=
  if generate_layers then
    let v := ico_sizes.filter (fun s => s.1 ≤ width && s.2 ≤ height)
    if v = [] then [(width, height)] else v
  else [(width, height)]

/-- C7 counterexample: for a 300x300 source the multi-layer ICO writer
    uses the layer size 24, which is not in the claimed set
    {16,32,48,64,128,256}; so the fixed size set used when generating a
    multi-layer ICO is not exactly the claimed one. -/
theorem C7_counterexample :
    (24, 24) ∈ valid_sizes 300 300 true ∧ 24 ∉ WIN_SIZES ∧
      (valid_sizes 300 300 true).map Prod.fst ≠ WIN_SIZES := by
  refine ⟨by decide, by decide, by decide⟩

/-- C7 amended: the SVG-converter revision's Windows size constant is
    exactly [16,32,48,64,128,256], while `convert_png_to_ico` draws its
    layers from [256,128,64,48,32,24,16]; in the latter, every selected
    layer fits inside the source image unless no standard size fits, in
    which case the source's own size is the sole entry. -/
theorem C7_amended :
    WIN_SIZES = [16, 32, 48, 64, 128, 256] ∧
    ico_sizes.map Prod.fst = [256, 128, 64, 48, 32, 24, 16] ∧
    (∀ w h s, s ∈ valid_sizes w h true → (s.1 ≤ w ∧ s.2 ≤ h) ∨ s = (w, h)) ∧
    (∀ w h, (∀ s ∈ ico_sizes, ¬(s.1 ≤ w ∧ s.2 ≤ h)) →
      valid_sizes w h true = [(w, h)]) := by
  refine ⟨rfl, rfl, ?_, ?_⟩
  · intro w h s hs
    unfold valid_sizes at hs
    simp only [if_pos] at hs
    by_cases hempty : ico_sizes.filter (fun s => s.1 ≤ w && s.2 ≤ h) = []
    · rw [hempty] at hs
      simp at hs
      right
      exact hs
    · rw [if_neg hempty] at hs
      left
      have := List.of_mem_filter hs
      simpa using this
  · intro w h hall
    unfold valid_sizes
    have hempty : ico_sizes.filter (fun s => s.1 ≤ w && s.2 ≤ h) = [] := by
      rw [List.filter_eq_nil_iff]
      intro s hs
      have := hall s hs
      simpa using this
    simp [hempty]

/-- C7 amended witness at a concrete 10x10 source: every standard size is
    excluded, so the source size is the sole entry. -/
theorem C7_amended_witness : valid_sizes 10 10 true = [(10, 10)] :=
  C7_amended.2.2.2 10 10 (by decide)

/-- C2: `validate_url` accepts a candidate URL iff its scheme is exactly
    https and its lowercased host equals an allow-listed domain or ends
    with a dot followed by one; in particular the evil-icons8.com URL is
    rejected and the sub.icons8.com URL is accepted. -/
theorem C2_validate_url_iff :
    (∀ url : List Char, isOkE (validate_url url) = true ↔ specAcceptsUrl url) ∧
    isOkE (validate_url (str "https://evil-icons8.com/x")) = false ∧
    isOkE (validate_url (str "https://sub.icons8.com/x")) = true := by
  refine ⟨?_, by decide, by decide⟩
  intro url
  unfold validate_url specAcceptsUrl
  by_cases hnil : url = []
  · subst hnil
    simp only [if_pos rfl]
    constructor
    · intro h; cases h
    · intro h
      exfalso
      have := h.1
      simp [pyUrlparse, urlSchemeSplit, breakAt, str] at this
  · rw [if_neg hnil]
    by_cases hscheme : (pyUrlparse url).scheme ∈ ALLOWED_SCHEMES
    · rw [if_pos hscheme]
      have hs : (pyUrlparse url).scheme = str "https" := by
        simpa [ALLOWED_SCHEMES] using hscheme
      by_cases hdom : domainAllowed (lowerL (pyUrlparse url).netloc) ALLOWED_DOMAINS = true
      · rw [if_pos hdom]
        simp only [isOkE, true_iff]
        refine ⟨hs, ?_⟩
        unfold domainAllowed at hdom
        rw [List.any_eq_true] at hdom
        obtain ⟨d, hd, hor⟩ := hdom
        refine ⟨d, hd, ?_⟩
        rcases Bool.or_eq_true _ _ |>.mp hor with h | h
        · exact Or.inl (by simpa using h)
        · exact Or.inr h
      · rw [if_neg hdom]
        simp only [isOkE, Bool.false_eq_true, false_iff]
        intro hcontra
        apply hdom
        obtain ⟨_, d, hd, hor⟩ := hcontra
        unfold domainAllowed
        rw [List.any_eq_true]
        refine ⟨d, hd, ?_⟩
        rcases hor with h | h
        · simp [h]
        · simp [h]
    · rw [if_neg hscheme]
      simp only [isOkE, Bool.false_eq_true, false_iff]
      intro hcontra
      exact hscheme (by simp [ALLOWED_SCHEMES, hcontra.1])

/-- C2 witness: a concrete accepted URL, via the universal direction of
    the theorem. -/
theorem C2_validate_url_iff_witness :
    isOkE (validate_url (str "https://img.icons8.com/?size=256")) = true := by
  refine (C2_validate_url_iff.1 _).mpr ?_
  refine ⟨by decide, str "img.icons8.com", by decide, Or.inl (by decide)⟩

/-! ## Collection scraping prelude (src/icons8_collector/scraper.py lines
     32-84 and 219-231, src/src/icons8_collector/auth.py lines 10-15) -/

def ALLOWED_COLLECTION_DOMAINS : List (List Char) := [str "icons8.com"]

def VALID_SIZES : List Nat := [16, 24, 32, 48, 64, 96, 128, 256, 512]

/-- `validate_collection_url` (src/icons8_collector/scraper.py lines
    32-69): https scheme, icons8.com domain, and a collection path
    marker. -/
def validate_collection_url (url : List Char) : Except CollectorErr Unit :=
  if url = [] then
    .error ⟨.validation, str "Collection URL must be a non-empty string"⟩
  else
    let parsed := pyUrlparse url
    if parsed.scheme ∈ ALLOWED_SCHEMES then
      if domainAllowed (lowerL parsed.netloc) ALLOWED_COLLECTION_DOMAINS then
        if containsSub (str "/collection/") parsed.path ||
            containsSub (str "/collections/") parsed.path then .ok ()
        else .error ⟨.validation,
          str "URL does not appear to be a valid Icons8 collection URL. Expected path to contain /collection/ or /collections/"⟩
      else .error ⟨.validation,
        str "URL domain not allowed: " ++ lowerL parsed.netloc ++
          str ". Only Icons8 domains are permitted."⟩
    else
      .error ⟨.validation,
        str "Only HTTPS URLs are allowed. Got: " ++ parsed.scheme⟩

/-- `validate_size` (src/icons8_collector/scraper.py lines 72-83). -/
def validate_size (size : Nat) : Except CollectorErr Unit :=
  if size ∈ VALID_SIZES then .ok ()
  else .error ⟨.validation, str "Invalid size"⟩

/-- Python truthiness of an optional string: present and non-empty. -/
def truthy (o : Option (List Char)) : Bool :=
  match o with
  | some s => s ≠ []
  | none => false

/-- `validate_credentials` (src/src/icons8_collector/auth.py lines
    10-15): fails iff exactly one of email/password is truthy. -/
def validate_credentials (email password : Option (List Char)) :
    Except CollectorErr Unit :=
  if (truthy email && !truthy password) || (truthy password && !truthy email) then
    .error ⟨.configuration,
      str "Both email and password must be provided together. Provide both --email and --password arguments."⟩
  else .ok ()

/-- Observable actions of the scraping pipeline that touch the outside
    world; used to state that validation failures happen before any of
    them. -/
inductive Effect where
  | launchBrowser | navigate
  deriving DecidableEq, Repr

/-- The prelude of `scrape_collection` (src/icons8_collector/scraper.py
    lines 226-231): the three validations run in order, and only when
    all pass does the function launch the browser (its first external
    action, line 231).  Everything after the launch is outside this
    model; the returned effect list records which external actions were
    started. -/
def scrape_collection_prelude (url : List Char) (size : Nat)
    (email password : Option (List Char)) :
    Except CollectorErr Unit × List Effect :=
  match validate_collection_url url with
  | .error e => (.error e, [])
  | .ok _ =>
    match validate_size size with
    | .error e => (.error e, [])
    | .ok _ =>
      match validate_credentials email password with
      | .error e => (.error e, [])
      | .ok _ => (.ok (), [Effect.launchBrowser, Effect.navigate])

/-- The claim's wording for a credential value being supplied: present
    and non-empty. -/
def credNonEmpty (o : Option (List Char)) : Prop :=
  ∃ s, o = some s ∧ s ≠ []

/-- The claim's wording for a credential being empty or absent. -/
def credEmptyOrAbsent (o : Option (List Char)) : Prop :=
  o = none ∨ o = some []

/-- C9: with a valid collection URL and size, supplying exactly one of
    email/password makes the pipeline fail with a Configuration-kind
    error with no browser launch or network action; supplying both or
    neither passes credential validation. -/
theorem C9_credentials_both_or_neither :
    (∀ url size email password,
      isOkE (validate_collection_url url) = true →
      isOkE (validate_size size) = true →
      ((credNonEmpty email ∧ credEmptyOrAbsent password) ∨
       (credNonEmpty password ∧ credEmptyOrAbsent email)) →
      ∃ e, scrape_collection_prelude url size email password = (.error e, []) ∧
        e.kind = .configuration) ∧
    (∀ email password,
      ((credNonEmpty email ∧ credNonEmpty password) ∨
       (credEmptyOrAbsent email ∧ credEmptyOrAbsent password)) →
      validate_credentials email password = .ok ()) := by
  have htruthy : ∀ o, truthy o = true ↔ credNonEmpty o := by
    intro o
    cases o with
    | none => simp [truthy, credNonEmpty]
    | some s =>
      simp only [truthy, credNonEmpty]
      constructor
      · intro h
        exact ⟨s, rfl, by simpa using h⟩
      · intro h
        obtain ⟨t, ht, hne⟩ := h
        cases ht
        simpa using hne
  have hfalsy : ∀ o, truthy o = false ↔ credEmptyOrAbsent o := by
    intro o
    cases o with
    | none => simp [truthy, credEmptyOrAbsent]
    | some s =>
      simp only [truthy, credEmptyOrAbsent]
      constructor
      · intro h
        right
        simp only [decide_eq_false_iff_not, Decidable.not_not] at h
        exact congrArg some h
      · intro h
        rcases h with h | h
        · cases h
        · cases h
          simp
  constructor
  · intro url size email password hurl hsize hone
    have hcred : validate_credentials email password =
        .error ⟨.configuration,
          str "Both email and password must be provided together. Provide both --email and --password arguments."⟩ := by
      rcases hone with ⟨h1, h2⟩ | ⟨h1, h2⟩
      · have ha := (htruthy email).mpr h1
        have hb := (hfalsy password).mpr h2
        simp [validate_credentials, ha, hb]
      · have ha := (htruthy password).mpr h1
        have hb := (hfalsy email).mpr h2
        simp [validate_credentials, ha, hb]
    refine ⟨⟨.configuration,
      str "Both email and password must be provided together. Provide both --email and --password arguments."⟩,
      ?_, rfl⟩
    unfold scrape_collection_prelude
    rcases hok1 : validate_collection_url url with e | u1
    · rw [hok1] at hurl; cases hurl
    · rcases hok2 : validate_size size with e | u2
      · rw [hok2] at hsize; cases hsize
      · rw [hcred]
  · intro email password hboth
    rcases hboth with ⟨h1, h2⟩ | ⟨h1, h2⟩
    · have ha := (htruthy email).mpr h1
      have hb := (htruthy password).mpr h2
      simp [validate_credentials, ha, hb]
    · have ha := (hfalsy email).mpr h1
      have hb := (hfalsy password).mpr h2
      simp [validate_credentials, ha, hb]

/-- C9 witness: a concrete valid collection URL and size with only an
    email supplied fails with a configuration error and no external
    effect; both-supplied and neither-supplied pass. -/
theorem C9_credentials_both_or_neither_witness :
    (∃ e, scrape_collection_prelude (str "https://icons8.com/collection/abc") 256
        (some (str "user")) none = (.error e, []) ∧ e.kind = .configuration) ∧
    validate_credentials (some (str "user")) (some (str "pw")) = .ok () ∧
    validate_credentials none none = .ok () := by
  refine ⟨?_, ?_, ?_⟩
  · exact C9_credentials_both_or_neither.1 _ 256 _ none (by decide) (by decide)
      (Or.inl ⟨⟨str "user", rfl, by decide⟩, Or.inl rfl⟩)
  · exact C9_credentials_both_or_neither.2 _ _
      (Or.inl ⟨⟨str "user", rfl, by decide⟩, ⟨str "pw", rfl, by decide⟩⟩)
  · exact C9_credentials_both_or_neither.2 _ _ (Or.inr ⟨Or.inl rfl, Or.inl rfl⟩)

/-! ## Decimal rendering (model of Python str(int), used in messages
     and in URL building) -/

def digitChar (n : Nat) : Char :=
  match n with
  | 0 => '0' | 1 => '1' | 2 => '2' | 3 => '3' | 4 => '4'
  | 5 => '5' | 6 => '6' | 7 => '7' | 8 => '8' | _ => '9'

/-- Digit-list accumulation with fuel (the fuel `n + 1` always
    suffices, keeping the definition kernel-computable). -/
def natDigitCharsAux : Nat → Nat → List Char
  | 0, n => [digitChar n]
  | fuel + 1, n =>
    if n < 10 then [digitChar n]
    else natDigitCharsAux fuel (n / 10) ++ [digitChar (n % 10)]

def natDigitChars (n : Nat) : List Char := natDigitCharsAux n n

def intChars (i : Int) : List Char :=
  if i < 0 then '-' :: natDigitChars i.natAbs else natDigitChars i.natAbs

/-- Model of Python `int(s)` on a header string: optional surrounding
    spaces, optional sign, one or more ASCII digits. -/
def pyIntOfStr (s : List Char) : Option Int :=
  let t := ((s.dropWhile (fun c => c = ' ')).reverse.dropWhile
    (fun c => c = ' ')).reverse
  match t with
  | '-' :: ds =>
    if ds ≠ [] && ds.all Char.isDigit then
      some (-(ds.foldl (fun a c => a * 10 + (c.toNat - 48)) 0 : Nat)) else none
  | '+' :: ds =>
    if ds ≠ [] && ds.all Char.isDigit then
      some ((ds.foldl (fun a c => a * 10 + (c.toNat - 48)) 0 : Nat)) else none
  | ds =>
    if ds ≠ [] && ds.all Char.isDigit then
      some ((ds.foldl (fun a c => a * 10 + (c.toNat - 48)) 0 : Nat)) else none

/-! ## Fetch response validation (src/icons8_collector/downloader.py,
     `download_icon` lines 101-179) -/

def MAX_FILE_SIZE : Nat := 50 * 1024 * 1024

def MIN_IMAGE_SIZE : Nat := 100

def PNG_SIGNATURE : List Nat := [137, 80, 78, 71, 13, 10, 26, 10]

/-- An HTTP response as seen by `download_icon`: status code,
    content-type and content-length headers, accumulated body bytes. -/
structure HttpResponse where
  status : Nat
  contentType : List Char
  contentLength : Option (List Char)
  body : List Nat
  deriving DecidableEq, Repr

/-- The declared content-length cap check of `download_icon`
    (src/icons8_collector/downloader.py lines 144-155): a malformed
    header is ignored, a parsed length above the cap fails. -/
def length_header_check (r : HttpResponse) : Except CollectorErr Unit :=
  match r.contentLength with
  | some cl =>
    match pyIntOfStr cl with
    | some n =>
      if (MAX_FILE_SIZE : Int) < n then
        .error ⟨.download, str "File too large: " ++ intChars n ++
          str " bytes (max: " ++ natDigitChars MAX_FILE_SIZE ++ str " bytes)"⟩
      else .ok ()
    | none => .ok ()
  | none => .ok ()

/-- The response-validation chain of `download_icon`
    (src/icons8_collector/downloader.py lines 109-179):
    `raise_for_status`, the content-type check, the declared-length cap,
    the accumulated-size cap, the minimum-size check, and the PNG magic
    bytes, in source order.  (The chunked accumulation is modelled by its
    outcome: the body exceeds the cap iff some accumulated prefix does.) -/
def process_response (r : HttpResponse) : Except CollectorErr (List Nat) :=
  if 400 ≤ r.status then
    .error ⟨.download, str "HTTP error " ++ natDigitChars r.status ++
      str " while downloading"⟩
  else if !containsSub (str "image") (lowerL r.contentType) then
    .error ⟨.download, str "Response is not an image. Content-Type: " ++
      r.contentType⟩
  else
    match length_header_check r with
    | .error e => .error e
    | .ok _ =>
      if MAX_FILE_SIZE < r.body.length then
        .error ⟨.download, str "File exceeds maximum size of " ++
          natDigitChars MAX_FILE_SIZE ++ str " bytes"⟩
      else if r.body.length < MIN_IMAGE_SIZE then
        .error ⟨.download, str "Response content too small (" ++
          natDigitChars r.body.length ++ str " bytes), likely not a valid image"⟩
      else if PNG_SIGNATURE.isPrefixOf r.body then .ok r.body
      else .error ⟨.download, str "Downloaded content is not a valid PNG file"⟩

/-- C5: a body is accepted only if the content-type contains image (hence
    image-or-xml), the length is at least the minimum valid size and the
    PNG signature leads the bytes; a 200 text/html response fails with a
    Download error whose message contains "not an image"; a 90-byte
    response with matching magic fails via the separate minimum-size
    check. -/
theorem C5_response_validation :
    (∀ r body, process_response r = .ok body →
      containsSub (str "image") (lowerL r.contentType) = true ∧
      (containsSub (str "image") (lowerL r.contentType) = true ∨
       containsSub (str "xml") (lowerL r.contentType) = true) ∧
      MIN_IMAGE_SIZE ≤ body.length ∧
      PNG_SIGNATURE.isPrefixOf body = true ∧ body = r.body) ∧
    (∀ r, r.status = 200 → r.contentType = str "text/html" →
      ∃ e, process_response r = .error e ∧ e.kind = .download ∧
        containsSub (str "not an image") e.msg = true) ∧
    (∀ r, r.status = 200 →
      containsSub (str "image") (lowerL r.contentType) = true →
      r.contentLength = none → r.body.length = 90 →
      PNG_SIGNATURE.isPrefixOf r.body = true →
      ∃ e, process_response r = .error e ∧ e.kind = .download ∧
        containsSub (str "too small") e.msg = true) := by
  refine ⟨?_, ?_, ?_⟩
  · intro r body h
    unfold process_response at h
    split at h
    · cases h
    · split at h
      · cases h
      · rename_i hst hct
        simp only [Bool.not_eq_true', Bool.not_eq_false] at hct
        split at h
        · cases h
        · split at h
          · cases h
          · split at h
            · cases h
            · split at h
              · rename_i hsig
                cases h
                refine ⟨hct, Or.inl hct, by omega, hsig, rfl⟩
              · cases h
  · intro r hst hct
    refine ⟨⟨.download, str "Response is not an image. Content-Type: " ++
      r.contentType⟩, ?_, rfl, ?_⟩
    · unfold process_response
      rw [if_neg (by omega)]
      rw [if_pos (by rw [hct]; decide)]
    · rw [hct]; decide
  · intro r hst hct hcl hlen hsig
    refine ⟨⟨.download, str "Response content too small (" ++
      natDigitChars r.body.length ++ str " bytes), likely not a valid image"⟩,
      ?_, rfl, ?_⟩
    · have hok : length_header_check r = .ok () := by
        unfold length_header_check
        rw [hcl]
      unfold process_response
      rw [if_neg (by omega)]
      rw [if_neg (by rw [hct]; decide)]
      rw [hok]
      rw [if_neg (by rw [hlen]; decide)]
      rw [if_pos (by rw [hlen]; decide)]
    · rw [hlen]; decide

/-- C5 witness: a concrete 200 text/html response is rejected with a
    Download error mentioning "not an image". -/
theorem C5_response_validation_witness :
    ∃ e, process_response ⟨200, str "text/html", none, [137, 80]⟩ = .error e ∧
      e.kind = .download ∧ containsSub (str "not an image") e.msg = true :=
  C5_response_validation.2.1 ⟨200, str "text/html", none, [137, 80]⟩ rfl rfl

/-! ## Batch run and exit code (src/icons8_collector/main.py,
     `run_download` lines 62-110 and `main` lines 114-159) -/

inductive OutputFormat where
  | png | ico | both
  deriving DecidableEq, Repr

/-- Whether the chosen format makes the loop attempt ICO conversion. -/
def needsIco (fmt : OutputFormat) : Bool :=
  match fmt with
  | .ico => true
  | .both => true
  | .png => false

/-- One icon of the batch, by the outcomes of its two fallible steps:
    `download_icon` and (when attempted) `convert_png_to_ico`. -/
structure ItemSim where
  dl : Except CollectorErr Unit
  cv : Except CollectorErr Unit

structure RunSummary where
  downloaded : Nat
  converted : Nat
  errors : List (List Char)
  deriving DecidableEq, Repr

/-- The per-icon loop of `run_download` (src/icons8_collector/main.py
    lines 62-89): only `DownloadError` is caught around the download and
    only `ConversionError` around the conversion; a caught error is
    appended to the error list and the loop continues; any other
    exception propagates and aborts the run. -/
def processItems (fmt : OutputFormat) :
    List ItemSim → RunSummary → Except CollectorErr RunSummary
  | [], s => .ok s
  | it :: rest, s =>
    match it.dl with
    | .error e =>
      if e.kind = .download then
        processItems fmt rest ⟨s.downloaded, s.converted, s.errors ++ [e.msg]⟩
      else .error e
    | .ok _ =>
      if needsIco fmt then
        match it.cv with
        | .error e =>
          if e.kind = .conversion then
            processItems fmt rest
              ⟨s.downloaded + 1, s.converted, s.errors ++ [e.msg]⟩
          else .error e
        | .ok _ =>
          processItems fmt rest ⟨s.downloaded + 1, s.converted + 1, s.errors⟩
      else processItems fmt rest ⟨s.downloaded + 1, s.converted, s.errors⟩

/-- `run_download` after scraping succeeded: process every icon starting
    from the empty summary. -/
def run_download (fmt : OutputFormat) (items : List ItemSim) :
    Except CollectorErr RunSummary :=
  processItems fmt items ⟨0, 0, []⟩

/-- `main` (src/icons8_collector/main.py lines 114-159): any
    `Icons8CollectorError` escaping `run_download` (or scraping) yields
    exit code 1, otherwise the function returns 0 -- regardless of the
    per-item counts. -/
def mainExit (scrape : Except CollectorErr (List ItemSim))
    (fmt : OutputFormat) : Nat :=
  match scrape with
  | .error _ => 1
  | .ok items =>
    match run_download fmt items with
    | .error _ => 1
    | .ok _ => 0

/-- An item whose failures, if any, are item-level (Download for the
    download step, Conversion for the conversion step). -/
def itemLevelOnly (it : ItemSim) : Prop :=
  (∀ e, it.dl = .error e → e.kind = .download) ∧
  (∀ e, it.cv = .error e → e.kind = .conversion)

def dlOk (it : ItemSim) : Bool := isOkE it.dl

/-- Number of item-level failures the loop records for one item. -/
def itemErrorCount (fmt : OutputFormat) (it : ItemSim) : Nat :=
  match it.dl with
  | .error _ => 1
  | .ok _ =>
    if needsIco fmt then
      match it.cv with
      | .error _ => 1
      | .ok _ => 0
    else 0

/-- C4 counterexample: a batch whose single icon fails its download with
    a Download-kind error still makes the process exit 0 (the success
    code), although zero items succeeded; the claim's "exits with a
    failure code otherwise" is false on the code. -/
theorem C4_counterexample :
    mainExit (.ok [⟨.error ⟨.download, str "boom"⟩, .ok ()⟩]) .png = 0 ∧
    run_download .png [⟨.error ⟨.download, str "boom"⟩, .ok ()⟩] =
      .ok ⟨0, 0, [str "boom"]⟩ := by
  constructor
  · rfl
  · rfl

/-- C4 amended: Download-kind and Conversion-kind failures are caught
    per icon, recorded in the error list and never abort the batch (the
    loop returns a summary covering every icon, with the download count
    and one recorded error per failed step); the process exits 0 iff
    scraping succeeded and no run-level error escaped the loop --
    independently of how many items succeeded. -/
theorem C4_item_errors_and_exit :
    (∀ fmt items s, (∀ it ∈ items, itemLevelOnly it) →
      ∃ fin, processItems fmt items s = .ok fin ∧
        fin.downloaded = s.downloaded + (items.countP dlOk) ∧
        fin.errors.length = s.errors.length +
          ((items.map (itemErrorCount fmt)).sum)) ∧
    (∀ scrape fmt, mainExit scrape fmt = 0 ↔
      ∃ items, scrape = .ok items ∧ isOkE (run_download fmt items) = true) := by
  constructor
  · intro fmt items
    induction items with
    | nil =>
      intro s _
      exact ⟨s, rfl, by simp, by simp⟩
    | cons it rest ih =>
      intro s hlev
      have hit := hlev it (by simp)
      have hrest : ∀ x ∈ rest, itemLevelOnly x := fun x hx => hlev x (by simp [hx])
      obtain ⟨dl, cv⟩ := it
      rcases hdl : dl with e | u
      all_goals subst hdl
      · have hkind := hit.1 e rfl
        obtain ⟨fin, hfin, hcount, herr⟩ :=
          ih ⟨s.downloaded, s.converted, s.errors ++ [e.msg]⟩ hrest
        refine ⟨fin, ?_, ?_, ?_⟩
        · simp only [processItems]
          rw [if_pos hkind]
          exact hfin
        · rw [hcount]
          simp [List.countP_cons, dlOk, isOkE]
        · rw [herr]
          simp [itemErrorCount]
          omega
      · by_cases hico : needsIco fmt = true
        · rcases hcv : cv with e | u2
          all_goals subst hcv
          · have hkind := hit.2 e rfl
            obtain ⟨fin, hfin, hcount, herr⟩ :=
              ih ⟨s.downloaded + 1, s.converted, s.errors ++ [e.msg]⟩ hrest
            refine ⟨fin, ?_, ?_, ?_⟩
            · simp only [processItems]
              rw [hico]
              simp only [if_true]
              rw [if_pos hkind]
              exact hfin
            · rw [hcount]
              simp [List.countP_cons, dlOk, isOkE]
              omega
            · rw [herr]
              simp [itemErrorCount, hico]
              omega
          · obtain ⟨fin, hfin, hcount, herr⟩ :=
              ih ⟨s.downloaded + 1, s.converted + 1, s.errors⟩ hrest
            refine ⟨fin, ?_, ?_, ?_⟩
            · simp only [processItems]
              rw [hico]
              simp only [if_true]
              exact hfin
            · rw [hcount]
              simp [List.countP_cons, dlOk, isOkE]
              omega
            · rw [herr]
              simp [itemErrorCount, hico]
        · obtain ⟨fin, hfin, hcount, herr⟩ :=
            ih ⟨s.downloaded + 1, s.converted, s.errors⟩ hrest
          rw [Bool.not_eq_true] at hico
          refine ⟨fin, ?_, ?_, ?_⟩
          · simp only [processItems]
            rw [hico]
            simp only [Bool.false_eq_true, if_false]
            exact hfin
          · rw [hcount]
            simp [List.countP_cons, dlOk, isOkE]
            omega
          · rw [herr]
            simp [itemErrorCount, hico]
  · intro scrape fmt
    rcases scrape with e | items
    · simp [mainExit]
    · simp only [mainExit]
      rcases hrun : run_download fmt items with e | s
      · simp [isOkE, hrun]
      · simp [isOkE, hrun]

/-- C4 amended witness: a two-icon batch where the first download fails
    and the second succeeds yields an ok summary with one downloaded
    item and one recorded error; with scraping succeeded the exit code
    is 0. -/
theorem C4_item_errors_and_exit_witness :
    (∃ fin, processItems .png
        [⟨.error ⟨.download, str "x"⟩, .ok ()⟩, ⟨.ok (), .ok ()⟩] ⟨0, 0, []⟩ =
        .ok fin ∧
      fin.downloaded = 0 + ([⟨.error ⟨.download, str "x"⟩, .ok ()⟩,
        (⟨.ok (), .ok ()⟩ : ItemSim)] : List ItemSim).countP dlOk ∧
      fin.errors.length = ([] : List (List Char)).length +
        (([⟨.error ⟨.download, str "x"⟩, .ok ()⟩,
          (⟨.ok (), .ok ()⟩ : ItemSim)] : List ItemSim).map
            (itemErrorCount .png)).sum) ∧
    (mainExit (.ok [⟨.ok (), .ok ()⟩]) .png = 0 ↔
      ∃ items, (Except.ok [(⟨.ok (), .ok ()⟩ : ItemSim)] :
          Except CollectorErr (List ItemSim)) = .ok items ∧
        isOkE (run_download .png items) = true) := by
  constructor
  · exact C4_item_errors_and_exit.1 .png _ ⟨0, 0, []⟩ (by
      intro it hit
      simp only [List.mem_cons, List.mem_singleton] at hit
      rcases hit with h | h | h
      · subst h
        exact ⟨fun e he => by cases he; rfl, fun e he => (nomatch he)⟩
      · subst h
        exact ⟨fun e he => (nomatch he), fun e he => (nomatch he)⟩
      · cases h)
  · exact C4_item_errors_and_exit.2 _ .png

/-! ## Download retry policy (src/icons8_collector/client.py,
     `Icons8Client._download_with_retry` lines 253-332 and
     `download_icon` lines 334-398)

The tenacity decorator is `retry(retry=retry_if_exception_type((Timeout,
ConnectionError)), stop=stop_after_attempt(3),
wait=wait_exponential(multiplier=1, min=1, max=10), reraise=True)`.
One attempt of the wrapped body is modelled by its outcome: a timeout, a
connection error, a raised `DownloadError` (HTTP error or body-validation
failure: not retriable), or the downloaded bytes. -/

inductive AttemptOutcome where
  | timeout
  | connError
  | fail (e : CollectorErr)
  | ok (body : List Nat)

def MAX_RETRIES : Nat := 3

/-- Whether tenacity's `retry_if_exception_type((Timeout,
    ConnectionError))` retries this outcome's exception. -/
def retriable (o : AttemptOutcome) : Bool :=
  match o with
  | .timeout => true
  | .connError => true
  | _ => false

/-- `wait_exponential(multiplier=1, min=1, max=10)`: the exponential
    wait, clamped between the configured minimum and maximum, slept
    before retry `attempt_number + 1`. -/
def wait_exponential (multiplier mn mx attempt_number : Nat) : Nat :=
  max mn (min mx (multiplier * 2 ^ attempt_number))

def retryWait (attempt_number : Nat) : Nat :=
  wait_exponential 1 1 10 attempt_number

/-- The tenacity loop around `_download_with_retry`: run attempts
    starting at number `attempt` with `remaining` attempts allowed
    (`stop_after_attempt`); retriable exceptions are retried until the
    attempts are exhausted and then re-raised (`reraise=True`);
    non-retriable exceptions propagate at once.  Returns the final
    outcome and the number of the last attempt made. -/
def retryGo (outcomes : Nat → AttemptOutcome) (attempt remaining : Nat) :
    AttemptOutcome × Nat :=
  match remaining with
  | 0 => (outcomes attempt, attempt)
  | r + 1 =>
    match outcomes attempt with
    | .ok body => (.ok body, attempt)
    | .fail e => (.fail e, attempt)
    | o =>
      if r = 0 then (o, attempt)
      else retryGo outcomes (attempt + 1) r

def download_with_retry (outcomes : Nat → AttemptOutcome) :
    AttemptOutcome × Nat :=
  retryGo outcomes 1 MAX_RETRIES

/-- `download_icon` around the retried call (src/icons8_collector/
    client.py lines 360-367): an escaping Timeout/ConnectionError is
    wrapped into a DownloadError; a DownloadError passes through. -/
def download_icon_fetch (outcomes : Nat → AttemptOutcome) :
    Except CollectorErr (List Nat) :=
  match (download_with_retry outcomes).1 with
  | .ok body => .ok body
  | .fail e => .error e
  | .timeout => .error ⟨.download, str "Network error after 3 retries"⟩
  | .connError => .error ⟨.download, str "Network error after 3 retries"⟩

/-- The concrete schedule of the claim's scenario: attempts 1-3 time
    out, attempt 4 would succeed. -/
def threeTimeoutsThenOk : Nat → AttemptOutcome :=
  fun k => if k ≤ 3 then .timeout else .ok [137]

/-- C3 counterexample: with three consecutive timeouts and a success
    available on the fourth attempt, the fetch does NOT succeed -- the
    code stops after 3 total attempts and raises a Download-kind error,
    so the claimed "success on the fourth attempt still yields a
    successful fetch" is false. -/
theorem C3_counterexample :
    download_icon_fetch threeTimeoutsThenOk =
      .error ⟨.download, str "Network error after 3 retries"⟩ ∧
    (∀ body, download_icon_fetch threeTimeoutsThenOk ≠ .ok body) ∧
    (download_with_retry threeTimeoutsThenOk).2 = 3 := by
  refine ⟨rfl, ?_, rfl⟩
  intro body h
  rw [show download_icon_fetch threeTimeoutsThenOk =
    .error ⟨.download, str "Network error after 3 retries"⟩ from rfl] at h
  cases h

/-- C3 amended: transient errors (timeout, connection failure) are
    retried with the clamped exponential backoff (base 1s, cap 10s) up
    to 3 total attempts: two timeouts followed by a success on the third
    attempt still succeed; three consecutive timeouts exhaust the
    attempts and yield a terminal Download-kind error; a non-retriable
    error (e.g. HTTP 404, raised as DownloadError) fails immediately on
    the first attempt with no retry. -/
theorem C3_retry_policy :
    (∀ outcomes body, outcomes 1 = .timeout → outcomes 2 = .timeout →
      outcomes 3 = .ok body →
      download_icon_fetch outcomes = .ok body) ∧
    (∀ outcomes, outcomes 1 = .timeout → outcomes 2 = .timeout →
      outcomes 3 = .timeout →
      ∃ e, download_icon_fetch outcomes = .error e ∧ e.kind = .download ∧
        (download_with_retry outcomes).2 = MAX_RETRIES) ∧
    (∀ outcomes e, outcomes 1 = .fail e →
      download_icon_fetch outcomes = .error e ∧
      (download_with_retry outcomes).2 = 1) ∧
    (∀ k, 1 ≤ retryWait k ∧ retryWait k ≤ 10) ∧ MAX_RETRIES = 3 := by
  refine ⟨?_, ?_, ?_, ?_, rfl⟩
  · intro outcomes body h1 h2 h3
    unfold download_icon_fetch download_with_retry MAX_RETRIES
    simp [retryGo, h1, h2, h3]
  · intro outcomes h1 h2 h3
    refine ⟨⟨.download, str "Network error after 3 retries"⟩, ?_, rfl, ?_⟩
    · unfold download_icon_fetch download_with_retry MAX_RETRIES
      simp [retryGo, h1, h2, h3]
    · unfold download_with_retry MAX_RETRIES
      simp [retryGo, h1, h2, h3]
  · intro outcomes e h1
    constructor
    · unfold download_icon_fetch download_with_retry MAX_RETRIES
      simp [retryGo, h1]
    · unfold download_with_retry MAX_RETRIES
      simp [retryGo, h1]
  · intro k
    unfold retryWait wait_exponential
    omega

/-- C3 amended witness: concrete schedules for the three scenarios. -/
theorem C3_retry_policy_witness :
    download_icon_fetch
      (fun k => if k ≤ 2 then .timeout else .ok [1, 2]) = .ok [1, 2] ∧
    (∃ e, download_icon_fetch (fun _ => .timeout) = .error e ∧
      e.kind = .download ∧
      (download_with_retry (fun _ => .timeout)).2 = MAX_RETRIES) ∧
    download_icon_fetch (fun _ => .fail ⟨.download, str "HTTP error 404 while downloading"⟩) =
      .error ⟨.download, str "HTTP error 404 while downloading"⟩ ∧
    1 ≤ retryWait 1 ∧ retryWait 1 ≤ 10 := by
  refine ⟨?_, ?_, ?_, ?_, ?_⟩
  · exact C3_retry_policy.1 _ [1, 2] rfl rfl rfl
  · exact C3_retry_policy.2.1 _ rfl rfl rfl
  · exact (C3_retry_policy.2.2.1 _ _ rfl).1
  · exact (C3_retry_policy.2.2.2.1 1).1
  · exact (C3_retry_policy.2.2.2.1 1).2

/-! ## Filename sanitization (src/icons8_collector/downloader.py lines
     202-225; the copy in src/icons8_collector/client.py lines 485-518
     is identical) -/

/-- The character filter of `sanitize_filename`: keep alphanumerics,
    space, dash and underscore.  (Python str.isalnum is modelled by
    Char.isAlphanum; on ASCII they agree.) -/
def sanitizeKeep (c : Char) : Bool :=
  c.isAlphanum || c = ' ' || c = '-' || c = '_'

/-- Python `name.replace("..", "_")`: left-to-right, non-overlapping. -/
def replaceDotDot : List Char → List Char
  | [] => []
  | [c] => [c]
  | c1 :: c2 :: rest =>
    if c1 = '.' ∧ c2 = '.' then '_' :: replaceDotDot rest
    else c1 :: replaceDotDot (c2 :: rest)

/-- Python `s.rstrip()`: drop trailing whitespace. -/
def rstripL (l : List Char) : List Char :=
  (l.reverse.dropWhile Char.isWhitespace).reverse

/-- Python `s.strip(".")`: drop leading and trailing dots. -/
def stripDots (l : List Char) : List Char :=
  ((l.dropWhile (fun c => c = '.')).reverse.dropWhile (fun c => c = '.')).reverse

/-- The transformation pipeline of `sanitize_filename` before the
    final emptiness check: replace path separators with underscores,
    drop null bytes, replace ".." with "_", keep only
    alphanumeric/space/dash/underscore, strip trailing whitespace, turn
    spaces into underscores, truncate to 200 characters. -/
def sanitize_core (name : List Char) : List Char :=
  ((rstripL ((replaceDotDot
      ((name.map (fun c => if c = '/' then '_' else if c = '\\' then '_' else c)).filter
        (fun c => !(c = '\x00')))).filter sanitizeKeep)).map
    (fun c => if c = ' ' then '_' else c)).take 200

/-- `sanitize_filename` (src/icons8_collector/downloader.py lines
    202-225). -/
def sanitize_filename (name : List Char) (fallback : List Char) : List Char :=
  if name = [] then fallback
  else
    if sanitize_core name = [] ∨ stripDots (sanitize_core name) = [] then fallback
    else sanitize_core name

/-- The output alphabet the claim states: alphanumerics, dashes and
    underscores. -/
def safeNoSpace (c : Char) : Bool :=
  c.isAlphanum || c = '-' || c = '_'

/-- A character the sanitizer makes vanish entirely: a space (stripped
    after the filter), or a character that is filtered out rather than
    replaced (not in the keep set and none of the replaced characters
    slash, backslash, dot). -/
def vanishes (c : Char) : Bool :=
  c = ' ' || (!sanitizeKeep c && !(c = '/') && !(c = '\\') && !(c = '.'))

lemma map_id_of_mem {f : Char → Char} {l : List Char}
    (h : ∀ c ∈ l, f c = c) : l.map f = l := by
  induction l with
  | nil => rfl
  | cons c rest ih =>
    simp only [List.map_cons]
    rw [h c (by simp), ih (fun x hx => h x (by simp [hx]))]

lemma filter_eq_self_of {p : Char → Bool} {l : List Char}
    (h : ∀ c ∈ l, p c = true) : l.filter p = l :=
  List.filter_eq_self.mpr h

lemma dropWhile_eq_self_of {p : Char → Bool} {l : List Char}
    (h : ∀ c ∈ l, p c = false) : l.dropWhile p = l := by
  cases l with
  | nil => rfl
  | cons c rest =>
    rw [List.dropWhile_cons]
    rw [h c (by simp)]
    simp

lemma dropWhile_eq_nil_of {p : Char → Bool} {l : List Char}
    (h : ∀ c ∈ l, p c = true) : l.dropWhile p = [] := by
  induction l with
  | nil => rfl
  | cons c rest ih =>
    rw [List.dropWhile_cons, h c (by simp)]
    simp only [if_true]
    exact ih (fun x hx => h x (by simp [hx]))

lemma replaceDotDot_of_no_dot {l : List Char}
    (h : ∀ c ∈ l, ¬ c = '.') : replaceDotDot l = l := by
  induction l with
  | nil => rfl
  | cons c rest ih =>
    cases rest with
    | nil => rfl
    | cons c2 r2 =>
      rw [replaceDotDot]
      rw [if_neg (fun hc => h c (by simp) hc.1)]
      rw [ih (fun x hx => h x (by simp [hx]))]

lemma rstrip_eq_self_of {l : List Char}
    (h : ∀ c ∈ l, c.isWhitespace = false) : rstripL l = l := by
  unfold rstripL
  rw [dropWhile_eq_self_of (fun c hc => h c (List.mem_reverse.mp hc))]
  exact List.reverse_reverse l

/-- If ".." occurs as a substring, a dot occurs as a character. -/
lemma containsSub_dotdot_mem {l : List Char}
    (h : containsSub ['.', '.'] l = true) : '.' ∈ l := by
  induction l with
  | nil => revert h; decide
  | cons c rest ih =>
    rw [containsSub] at h
    rcases Bool.or_eq_true _ _ |>.mp h with h | h
    · rw [List.isPrefixOf_cons₂] at h
      rcases Bool.and_eq_true _ _ |>.mp h with ⟨h1, _⟩
      have : c = '.' := (beq_iff_eq.mp h1).symm
      simp [this]
    · simp [ih h]

lemma mem_rstrip {l : List Char} {c : Char} (h : c ∈ rstripL l) : c ∈ l := by
  unfold rstripL at h
  rw [List.mem_reverse] at h
  have hsub : List.Sublist (List.dropWhile Char.isWhitespace l.reverse)
      l.reverse := List.dropWhile_sublist ..
  exact List.mem_reverse.mp (hsub.mem h)

/-- Whitespace is outside the safe output alphabet. -/
lemma safeNoSpace_not_ws {c : Char} (hs : safeNoSpace c = true) :
    c.isWhitespace = false := by
  by_contra hws
  rw [Bool.not_eq_false] at hws
  have hcases : ((c = ' ' ∨ c = '\t') ∨ c = '\r') ∨ c = '\n' := by
    have := hws
    unfold Char.isWhitespace at this
    simpa using this
  rcases hcases with ((h | h) | h) | h
  all_goals (subst h; revert hs; decide)

/-- Characterization of the sanitizer output: the fallback, or a
    non-empty string over the safe alphabet of length at most 200. -/
lemma sanitize_out (name fallback : List Char) :
    sanitize_filename name fallback = fallback ∨
    (sanitize_filename name fallback = sanitize_core name ∧
     sanitize_core name ≠ [] ∧
     (∀ c ∈ sanitize_core name, safeNoSpace c = true) ∧
     (sanitize_core name).length ≤ 200) := by
  unfold sanitize_filename
  by_cases hnil : name = []
  · rw [if_pos hnil]; left; rfl
  · rw [if_neg hnil]
    by_cases hfb : sanitize_core name = [] ∨ stripDots (sanitize_core name) = []
    · rw [if_pos hfb]; left; rfl
    · rw [if_neg hfb]
      right
      push_neg at hfb
      refine ⟨rfl, hfb.1, ?_, ?_⟩
      · intro c hc
        unfold sanitize_core at hc
        have hc6 := List.take_subset 200 _ hc
        rw [List.mem_map] at hc6
        obtain ⟨c5, hc5, hmap⟩ := hc6
        have hc4 := mem_rstrip hc5
        have hkeep : sanitizeKeep c5 = true := List.of_mem_filter hc4
        by_cases hsp : c5 = ' '
        · rw [← hmap, hsp]; decide
        · rw [← hmap]
          rw [if_neg hsp]
          unfold sanitizeKeep at hkeep
          unfold safeNoSpace
          rcases Bool.or_eq_true _ _ |>.mp hkeep with h | h
          · rcases Bool.or_eq_true _ _ |>.mp h with h | h
            · rcases Bool.or_eq_true _ _ |>.mp h with h | h
              · simp [h]
              · exact absurd (by simpa using h) hsp
            · simp [h]
          · simp [h]
      · exact List.length_take_le 200 _

/-- The safe characters are untouched by every pipeline stage. -/
lemma safe_char_facts {c : Char} (hs : safeNoSpace c = true) :
    c ≠ '/' ∧ c ≠ '\\' ∧ (!(c = '\x00')) = true ∧ c ≠ '.' ∧
    c.isWhitespace = false ∧ c ≠ ' ' ∧ sanitizeKeep c = true := by
  have hk : sanitizeKeep c = true := by
    unfold safeNoSpace at hs
    unfold sanitizeKeep
    rcases Bool.or_eq_true _ _ |>.mp hs with h | h
    · rcases Bool.or_eq_true _ _ |>.mp h with h | h
      · simp [h]
      · simp [h]
    · simp [h]
  refine ⟨?_, ?_, ?_, ?_, safeNoSpace_not_ws hs, ?_, hk⟩
  · intro h; subst h; revert hs; decide
  · intro h; subst h; revert hs; decide
  · simp only [Bool.not_eq_true', decide_eq_false_iff_not]
    intro h; subst h; revert hs; decide
  · intro h; subst h; revert hs; decide
  · intro h; subst h; revert hs; decide

/-- A non-empty string over the safe alphabet of length at most 200 is a
    fixpoint of the sanitizer. -/
lemma sanitize_fixpoint {w : List Char} (fallback : List Char)
    (hne : w ≠ []) (hsafe : ∀ c ∈ w, safeNoSpace c = true)
    (hlen : w.length ≤ 200) : sanitize_filename w fallback = w := by
  have hcore : sanitize_core w = w := by
    unfold sanitize_core
    have e1 : w.map (fun c => if c = '/' then '_' else if c = '\\' then '_' else c) = w :=
      map_id_of_mem (fun c hc => by
        have h := safe_char_facts (hsafe c hc)
        rw [if_neg h.1, if_neg h.2.1])
    rw [e1]
    have e2 : w.filter (fun c => !(c = '\x00')) = w :=
      filter_eq_self_of (fun c hc => (safe_char_facts (hsafe c hc)).2.2.1)
    rw [e2]
    have e3 : replaceDotDot w = w :=
      replaceDotDot_of_no_dot (fun c hc => (safe_char_facts (hsafe c hc)).2.2.2.1)
    rw [e3]
    have e4 : w.filter sanitizeKeep = w :=
      filter_eq_self_of (fun c hc => (safe_char_facts (hsafe c hc)).2.2.2.2.2.2)
    rw [e4]
    have e5 : rstripL w = w :=
      rstrip_eq_self_of (fun c hc => (safe_char_facts (hsafe c hc)).2.2.2.2.1)
    rw [e5]
    have e6 : w.map (fun c => if c = ' ' then '_' else c) = w :=
      map_id_of_mem (fun c hc => by
        rw [if_neg (safe_char_facts (hsafe c hc)).2.2.2.2.2.1])
    rw [e6]
    exact List.take_of_length_le hlen
  have hstrip : stripDots w = w := by
    unfold stripDots
    have d1 : w.dropWhile (fun c => c = '.') = w :=
      dropWhile_eq_self_of (fun c hc => by
        have h := (safe_char_facts (hsafe c hc)).2.2.2.1
        simpa using h)
    rw [d1]
    have d2 : w.reverse.dropWhile (fun c => c = '.') = w.reverse :=
      dropWhile_eq_self_of (fun c hc => by
        have h := (safe_char_facts (hsafe c (List.mem_reverse.mp hc))).2.2.2.1
        simpa using h)
    rw [d2]
    exact List.reverse_reverse w
  unfold sanitize_filename
  rw [if_neg hne, hcore]
  rw [if_neg (by
    push_neg
    exact ⟨hne, by rw [hstrip]; exact hne⟩)]

/-- C6 counterexample: the input "/" consists entirely of unsafe
    characters (a slash is neither alphanumeric nor space, dash or
    underscore), yet the sanitizer returns "_" and not the fallback
    "icon" -- the slash is replaced with an underscore, not removed. -/
theorem C6_counterexample :
    safeNoSpace '/' = false ∧ sanitizeKeep '/' = false ∧
    sanitize_filename (str "/") (str "icon") = str "_" ∧
    sanitize_filename (str "/") (str "icon") ≠ str "icon" := by
  refine ⟨by decide, by decide, by decide, by decide⟩

/-- C6 amended: the sanitizer is idempotent (with the default fallback);
    every output consists only of alphanumerics, dashes and underscores
    (hence no slash, backslash, null byte or ".."), is non-empty and at
    most 200 characters long; and an input consisting entirely of
    characters the sanitizer removes (spaces, null bytes, and characters
    outside the keep set other than the replaced "/", "\\" and ".")
    yields the fallback.  Inputs made only of replaced characters such
    as "/" yield underscores instead (see the counterexample). -/
theorem C6_sanitize_filename :
    (∀ name, sanitize_filename (sanitize_filename name (str "icon")) (str "icon") =
      sanitize_filename name (str "icon")) ∧
    (∀ name, sanitize_filename name (str "icon") ≠ [] ∧
      (∀ c ∈ sanitize_filename name (str "icon"), safeNoSpace c = true) ∧
      '/' ∉ sanitize_filename name (str "icon") ∧
      '\\' ∉ sanitize_filename name (str "icon") ∧
      '\x00' ∉ sanitize_filename name (str "icon") ∧
      containsSub (str "..") (sanitize_filename name (str "icon")) = false ∧
      (sanitize_filename name (str "icon")).length ≤ 200) ∧
    (∀ name fallback, (∀ c ∈ name, vanishes c = true) →
      sanitize_filename name fallback = fallback) := by
  have hicon : ∀ c ∈ str "icon", safeNoSpace c = true := by decide
  have hprops : ∀ name, sanitize_filename name (str "icon") ≠ [] ∧
      (∀ c ∈ sanitize_filename name (str "icon"), safeNoSpace c = true) ∧
      (sanitize_filename name (str "icon")).length ≤ 200 := by
    intro name
    rcases sanitize_out name (str "icon") with h | ⟨heq, hne, hsafe, hlen⟩
    · rw [h]
      exact ⟨by decide, hicon, by decide⟩
    · rw [heq]
      exact ⟨hne, hsafe, hlen⟩
  refine ⟨?_, ?_, ?_⟩
  · intro name
    obtain ⟨hne, hsafe, hlen⟩ := hprops name
    exact sanitize_fixpoint (str "icon") hne hsafe hlen
  · intro name
    obtain ⟨hne, hsafe, hlen⟩ := hprops name
    have hnodot : '.' ∉ sanitize_filename name (str "icon") := by
      intro hmem
      exact absurd (hsafe '.' hmem) (by decide)
    refine ⟨hne, hsafe, ?_, ?_, ?_, ?_, hlen⟩
    · intro hmem
      exact absurd (hsafe '/' hmem) (by decide)
    · intro hmem
      exact absurd (hsafe '\\' hmem) (by decide)
    · intro hmem
      exact absurd (hsafe '\x00' hmem) (by decide)
    · by_contra hcontra
      rw [Bool.not_eq_false] at hcontra
      apply hnodot
      apply containsSub_dotdot_mem
      have : str ".." = ['.', '.'] := by decide
      rw [this] at hcontra
      exact hcontra
  · intro name fallback hvan
    unfold sanitize_filename
    by_cases hnil : name = []
    · rw [if_pos hnil]
    · rw [if_neg hnil]
      have hvprops : ∀ c, vanishes c = true →
          c ≠ '/' ∧ c ≠ '\\' ∧ c ≠ '.' ∧ (sanitizeKeep c = true → c = ' ') := by
        intro c hv
        unfold vanishes at hv
        rcases Bool.or_eq_true _ _ |>.mp hv with h | h
        · have hc : c = ' ' := by simpa using h
          subst hc
          exact ⟨by decide, by decide, by decide, fun _ => rfl⟩
        · simp only [Bool.and_eq_true, Bool.not_eq_true'] at h
          obtain ⟨⟨⟨hk, h1⟩, h2⟩, h3⟩ := h
          refine ⟨by simpa using h1, by simpa using h2, by simpa using h3, ?_⟩
          intro hkk
          rw [hk] at hkk
          cases hkk
      have hcore : sanitize_core name = [] := by
        unfold sanitize_core
        have e1 : name.map (fun c => if c = '/' then '_' else if c = '\\' then '_' else c) = name :=
          map_id_of_mem (fun c hc => by
            have h := hvprops c (hvan c hc)
            rw [if_neg h.1, if_neg h.2.1])
        rw [e1]
        have hsub2 : ∀ c ∈ name.filter (fun c => !(c = '\x00')), vanishes c = true :=
          fun c hc => hvan c (List.mem_of_mem_filter hc)
        have e3 : replaceDotDot (name.filter (fun c => !(c = '\x00'))) =
            name.filter (fun c => !(c = '\x00')) :=
          replaceDotDot_of_no_dot (fun c hc => (hvprops c (hsub2 c hc)).2.2.1)
        rw [e3]
        have hsp : ∀ c ∈ (name.filter (fun c => !(c = '\x00'))).filter sanitizeKeep,
            c = ' ' := by
          intro c hc
          have hm := List.mem_of_mem_filter hc
          have hk := List.of_mem_filter hc
          exact (hvprops c (hsub2 c hm)).2.2.2 hk
        have hr : rstripL ((name.filter (fun c => !(c = '\x00'))).filter sanitizeKeep) = [] := by
          unfold rstripL
          rw [dropWhile_eq_nil_of (fun c hc => by
            rw [hsp c (List.mem_reverse.mp hc)]
            decide)]
          rfl
        rw [hr]
        rfl
      rw [if_pos (Or.inl hcore)]

/-- C6 amended witness: an all-unsafe-and-removed input yields the
    fallback, via the third conjunct of the theorem. -/
theorem C6_sanitize_filename_witness :
    sanitize_filename (str "###") (str "icon") = str "icon" :=
  C6_sanitize_filename.2.2 (str "###") (str "icon") (by decide)
/-! ## URL building and icon-id extraction (src/icons8_collector/client.py:
     `Icons8URLs.build_icon_url` lines 50-67, `validate_download_url`
     lines 172-207, `extract_icon_id_from_url` lines 521-532) -/

def hexDigitChar (n : Nat) : Char :=
  match n with
  | 0 => '0' | 1 => '1' | 2 => '2' | 3 => '3' | 4 => '4'
  | 5 => '5' | 6 => '6' | 7 => '7' | 8 => '8' | 9 => '9'
  | 10 => 'A' | 11 => 'B' | 12 => 'C' | 13 => 'D' | 14 => 'E' | _ => 'F'

/-- UTF-8 encoding of a code point (model of the bytes `quote_plus`
    percent-encodes for non-ASCII characters). -/
def utf8Bytes (n : Nat) : List Nat :=
  if n < 128 then [n]
  else if n < 2048 then [192 + n / 64, 128 + n % 64]
  else if n < 65536 then [224 + n / 4096, 128 + (n / 64) % 64, 128 + n % 64]
  else [240 + n / 262144, 128 + (n / 4096) % 64, 128 + (n / 64) % 64, 128 + n % 64]

def pctEncodeByte (b : Nat) : List Char :=
  ['%', hexDigitChar (b / 16), hexDigitChar (b % 16)]

/-- The characters `urllib.parse.quote_plus` never encodes
    (ASCII letters, digits, and `_.-~`). -/
def quoteSafe (c : Char) : Bool :=
  c.isAlphanum || c = '_' || c = '.' || c = '-' || c = '~'

/-- Model of Python `urllib.parse.quote_plus` with default `safe`:
    spaces become `+`, safe characters stay, everything else is
    percent-encoded byte-wise over its UTF-8 encoding. -/
def pyQuotePlus (s : List Char) : List Char :=
  s.flatMap (fun c =>
    if c = ' ' then ['+']
    else if quoteSafe c then [c]
    else (utf8Bytes c.toNat).flatMap pctEncodeByte)

/-- `Icons8URLs.build_icon_url`: `urlencode({"size": size, "id":
    icon_id, "format": fmt})` appended to `https://img.icons8.com/?`. -/
def build_icon_url (icon_id : List Char) (size : Int) (fmt : List Char) :
    List Char :=
  str "https://img.icons8.com/?" ++
    (str "size=" ++ pyQuotePlus (intChars size) ++
     str "&id=" ++ pyQuotePlus icon_id ++
     str "&format=" ++ pyQuotePlus fmt)

/-- `Icons8URLs.is_valid_domain` (client.py lines 69-88). -/
def is_valid_domain (url : List Char) (allowed : List (List Char)) : Bool :=
  domainAllowed (lowerL (pyUrlparse url).netloc) allowed

/-- `Icons8Client.validate_download_url` (client.py lines 172-207);
    `ALLOWED_DOWNLOAD_DOMAINS` is the same three-domain list. -/
def validate_download_url (url : List Char) : Except CollectorErr Unit :=
  if url = [] then
    .error ⟨.validation, str "URL must be a non-empty string"⟩
  else if (pyUrlparse url).scheme ∈ ALLOWED_SCHEMES then
    if is_valid_domain url ALLOWED_DOMAINS then .ok ()
    else .error ⟨.validation, str "URL domain not allowed"⟩
  else
    .error ⟨.validation, str "Only HTTPS URLs are allowed"⟩

/-- The character class of the extraction regex `[A-Za-z0-9_-]`. -/
def isIdChar (c : Char) : Bool :=
  c.isAlphanum || c = '_' || c = '-'

/-- The leftmost-search of `re.search(r"id=([A-Za-z0-9_-]+)", url)`:
    try each start position in order; a match needs the literal `id=`
    followed by at least one class character, captured greedily. -/
def scanIdParam : List Char → Option (List Char)
  | [] => none
  | c :: rest =>
    if c = 'i' ∧ rest.take 2 = ['d', '='] ∧
        (rest.drop 2).takeWhile isIdChar ≠ [] then
      some ((rest.drop 2).takeWhile isIdChar)
    else scanIdParam rest

/-- `extract_icon_id_from_url` (client.py lines 521-532). -/
def extract_icon_id_from_url (url : List Char) : Option (List Char) :=
  scanIdParam url

lemma scan_cons_ne {c : Char} (h : ¬ c = 'i') (l : List Char) :
    scanIdParam (c :: l) = scanIdParam l := by
  rw [scanIdParam]
  rw [if_neg (fun hh => h hh.1)]

lemma scan_cons_i {l : List Char} (h : ¬ l.take 2 = ['d', '=']) :
    scanIdParam ('i' :: l) = scanIdParam l := by
  rw [scanIdParam]
  rw [if_neg (fun hh => h hh.2.1)]

lemma takeWhile_append_first {p : Char → Bool} {l₁ l₂ : List Char}
    (h1 : ∀ c ∈ l₁, p c = true)
    (h2 : ∀ c, l₂.head? = some c → p c = false) :
    (l₁ ++ l₂).takeWhile p = l₁ := by
  induction l₁ with
  | nil =>
    cases l₂ with
    | nil => rfl
    | cons c t =>
      simp only [List.nil_append, List.takeWhile_cons]
      rw [h2 c rfl]
      simp
  | cons c t ih =>
    simp only [List.cons_append, List.takeWhile_cons]
    rw [h1 c (by simp)]
    simp only [if_true]
    rw [ih (fun x hx => h1 x (by simp [hx]))]

lemma breakAt_append_no {p : Char → Bool} {l₁ : List Char}
    (h : ∀ c ∈ l₁, p c = false) (l₂ : List Char) :
    breakAt p (l₁ ++ l₂) =
      (breakAt p l₂).map (fun ab => (l₁ ++ ab.1, ab.2)) := by
  induction l₁ with
  | nil =>
    simp only [List.nil_append]
    cases hb : breakAt p l₂ with
    | none => rfl
    | some ab => rfl
  | cons c t ih =>
    simp only [List.cons_append]
    rw [breakAt]
    rw [h c (by simp)]
    simp only [Bool.false_eq_true, if_false]
    rw [ih (fun x hx => h x (by simp [hx]))]
    cases hb : breakAt p l₂ with
    | none => rfl
    | some ab => rfl

lemma quotePlus_of_safe {s : List Char}
    (h : ∀ c ∈ s, quoteSafe c = true) : pyQuotePlus s = s := by
  induction s with
  | nil => rfl
  | cons c t ih =>
    have hc := h c (by simp)
    have hcsp : ¬ c = ' ' := by
      intro hsp
      subst hsp
      exact absurd hc (by decide)
    unfold pyQuotePlus
    rw [List.flatMap_cons]
    rw [if_neg hcsp, if_pos hc]
    have := ih (fun x hx => h x (by simp [hx]))
    unfold pyQuotePlus at this
    rw [this]
    rfl

lemma digitChar_mem (n : Nat) : digitChar n ∈ str "0123456789" := by
  unfold digitChar
  match n with
  | 0 => decide
  | 1 => decide
  | 2 => decide
  | 3 => decide
  | 4 => decide
  | 5 => decide
  | 6 => decide
  | 7 => decide
  | 8 => decide
  | n + 9 =>
    simp only
    decide

lemma natDigitCharsAux_mem (fuel : Nat) :
    ∀ n c, c ∈ natDigitCharsAux fuel n → c ∈ str "0123456789" := by
  induction fuel with
  | zero =>
    intro n c hc
    rw [natDigitCharsAux] at hc
    simp only [List.mem_singleton] at hc
    subst hc
    exact digitChar_mem n
  | succ fuel ih =>
    intro n c hc
    rw [natDigitCharsAux] at hc
    by_cases h10 : n < 10
    · rw [if_pos h10] at hc
      simp only [List.mem_singleton] at hc
      subst hc
      exact digitChar_mem n
    · rw [if_neg h10] at hc
      rw [List.mem_append] at hc
      rcases hc with hc | hc
      · exact ih (n / 10) c hc
      · simp only [List.mem_singleton] at hc
        subst hc
        exact digitChar_mem (n % 10)

lemma natDigitChars_mem (n : Nat) :
    ∀ c ∈ natDigitChars n, c ∈ str "0123456789" :=
  fun c hc => natDigitCharsAux_mem n n c hc

lemma intChars_mem (i : Int) : ∀ c ∈ intChars i, c ∈ str "-0123456789" := by
  intro c hc
  unfold intChars at hc
  by_cases hneg : i < 0
  · rw [if_pos hneg] at hc
    rcases List.mem_cons.mp hc with h | h
    · subst h; decide
    · have := natDigitChars_mem i.natAbs c h
      revert this
      intro hmem
      simp only [str] at hmem ⊢
      simpa using Or.inr (by simpa using hmem)
  · rw [if_neg hneg] at hc
    have := natDigitChars_mem i.natAbs c hc
    simp only [str] at this ⊢
    simpa using Or.inr (by simpa using this)

lemma scan_skip {D : List Char} (hD : ∀ c ∈ D, ¬ c = 'i') (l : List Char) :
    scanIdParam (D ++ l) = scanIdParam l := by
  induction D with
  | nil => rfl
  | cons c t ih =>
    rw [List.cons_append, scan_cons_ne (hD c (by simp))]
    exact ih (fun x hx => hD x (by simp [hx]))

/-- Any URL of the image-service shape parses to scheme https and
    netloc img.icons8.com, whatever the query holds. -/
lemma parse_img (Q : List Char) :
    (pyUrlparse (str "https://img.icons8.com/?" ++ Q)).scheme = str "https" ∧
    (pyUrlparse (str "https://img.icons8.com/?" ++ Q)).netloc =
      str "img.icons8.com" := by
  have hb : breakAt (fun c => c = ':') (str "https://img.icons8.com/?" ++ Q) =
      some (str "https", str "//img.icons8.com/?" ++ Q) := by
    have e1 : str "https://img.icons8.com/?" ++ Q =
        str "https" ++ (':' :: (str "//img.icons8.com/?" ++ Q)) := rfl
    rw [e1, breakAt_append_no (by decide)]
    rw [breakAt]
    rw [if_pos (by decide)]
    rfl
  have hs : urlSchemeSplit (str "https://img.icons8.com/?" ++ Q) =
      (str "https", str "//img.icons8.com/?" ++ Q) := by
    unfold urlSchemeSplit
    rw [hb]
    rfl
  have hn : (urlNetlocSplit (str "//img.icons8.com/?" ++ Q)).1 =
      str "img.icons8.com" := by
    have e : str "//img.icons8.com/?" ++ Q =
        '/' :: '/' :: (str "img.icons8.com" ++ ('/' :: '?' :: Q)) := rfl
    rw [e]
    unfold urlNetlocSplit
    simp only
    exact takeWhile_append_first (by decide)
      (fun c hc => by
        have h2 : '/' = c := by simpa using hc
        subst h2
        decide)
  constructor
  · rw [pyUrlparse_scheme, hs]
  · rw [pyUrlparse_netloc, hs]
    exact hn

/-- C10 counterexample: the empty icon id consists only of the allowed
    characters (vacuously), the built URL still validates, but the id
    extractor returns none rather than the original (empty) id -- the
    regex requires at least one class character. -/
theorem C10_counterexample :
    (∀ c ∈ ([] : List Char), isIdChar c = true) ∧
    validate_download_url (build_icon_url [] 256 (str "png")) = .ok () ∧
    extract_icon_id_from_url (build_icon_url [] 256 (str "png")) = none := by
  refine ⟨by decide, by decide, by decide⟩

/-- C10 amended: for every NON-empty icon id over `[A-Za-z0-9_-]`, every
    size and every format, the built URL passes the download validator
    and the extractor returns the original id. -/
theorem C10_build_validate_extract (icon_id : List Char) (size : Int)
    (fmt : List Char) (hne : icon_id ≠ [])
    (hid : ∀ c ∈ icon_id, isIdChar c = true) :
    validate_download_url (build_icon_url icon_id size fmt) = .ok () ∧
    extract_icon_id_from_url (build_icon_url icon_id size fmt) =
      some icon_id := by
  have hqid : pyQuotePlus icon_id = icon_id := by
    apply quotePlus_of_safe
    intro c hc
    have h := hid c hc
    unfold isIdChar at h
    unfold quoteSafe
    rcases Bool.or_eq_true _ _ |>.mp h with h | h
    · rcases Bool.or_eq_true _ _ |>.mp h with h | h
      · simp [h]
      · simp [h]
    · simp [h]
  have hD : ∀ c ∈ pyQuotePlus (intChars size), ¬ c = 'i' := by
    have hsafe : ∀ c ∈ intChars size, quoteSafe c = true := by
      intro c hc
      have := intChars_mem size c hc
      revert this
      intro hmem
      simp only [str] at hmem
      rcases List.mem_cons.mp hmem with h | h
      · subst h; decide
      · rcases List.mem_cons.mp h with h | h
        all_goals first
          | (subst h; decide)
          | skip
        rcases List.mem_cons.mp h with h | h
        all_goals first
          | (subst h; decide)
          | skip
        rcases List.mem_cons.mp h with h | h
        all_goals first
          | (subst h; decide)
          | skip
        rcases List.mem_cons.mp h with h | h
        all_goals first
          | (subst h; decide)
          | skip
        rcases List.mem_cons.mp h with h | h
        all_goals first
          | (subst h; decide)
          | skip
        rcases List.mem_cons.mp h with h | h
        all_goals first
          | (subst h; decide)
          | skip
        rcases List.mem_cons.mp h with h | h
        all_goals first
          | (subst h; decide)
          | skip
        rcases List.mem_cons.mp h with h | h
        all_goals first
          | (subst h; decide)
          | skip
        rcases List.mem_cons.mp h with h | h
        · subst h; decide
        · rcases List.mem_cons.mp h with h | h
          · subst h; decide
          · cases h
    rw [quotePlus_of_safe hsafe]
    intro c hc
    have := intChars_mem size c hc
    intro hci
    subst hci
    revert this
    decide
  constructor
  · unfold validate_download_url
    have hne2 : build_icon_url icon_id size fmt ≠ [] := by
      unfold build_icon_url
      intro h
      have := congrArg List.length h
      simp [str] at this
    rw [if_neg hne2]
    have hparse := parse_img (str "size=" ++ pyQuotePlus (intChars size) ++
      str "&id=" ++ pyQuotePlus icon_id ++ str "&format=" ++ pyQuotePlus fmt)
    have hurl : build_icon_url icon_id size fmt =
        str "https://img.icons8.com/?" ++
          (str "size=" ++ pyQuotePlus (intChars size) ++
           str "&id=" ++ pyQuotePlus icon_id ++ str "&format=" ++ pyQuotePlus fmt) := by
      unfold build_icon_url
      simp [List.append_assoc]
    rw [hurl]
    rw [if_pos (by
      rw [hparse.1]
      decide)]
    rw [if_pos (by
      unfold is_valid_domain
      rw [hparse.2]
      decide)]
  · unfold extract_icon_id_from_url
    have hurl : build_icon_url icon_id size fmt =
        str "https://img.icons8.com/?size=" ++
          (pyQuotePlus (intChars size) ++
            ('&' :: 'i' :: 'd' :: '=' ::
              (icon_id ++ (str "&format=" ++ pyQuotePlus fmt)))) := by
      unfold build_icon_url
      rw [hqid]
      simp [str, List.append_assoc]
    rw [hurl]
    rw [show str "https://img.icons8.com/?size=" ++
        (pyQuotePlus (intChars size) ++
          ('&' :: 'i' :: 'd' :: '=' ::
            (icon_id ++ (str "&format=" ++ pyQuotePlus fmt)))) =
        'h' :: 't' :: 't' :: 'p' :: 's' :: ':' :: '/' :: '/' :: 'i' ::
        'm' :: 'g' :: '.' :: 'i' :: 'c' :: 'o' :: 'n' :: 's' :: '8' ::
        '.' :: 'c' :: 'o' :: 'm' :: '/' :: '?' :: 's' :: 'i' :: 'z' ::
        'e' :: '=' ::
          (pyQuotePlus (intChars size) ++
            ('&' :: 'i' :: 'd' :: '=' ::
              (icon_id ++ (str "&format=" ++ pyQuotePlus fmt)))) from rfl]
    rw [scan_cons_ne (by decide), scan_cons_ne (by decide),
      scan_cons_ne (by decide), scan_cons_ne (by decide),
      scan_cons_ne (by decide), scan_cons_ne (by decide),
      scan_cons_ne (by decide), scan_cons_ne (by decide)]
    rw [scan_cons_i (by simp)]
    rw [scan_cons_ne (by decide), scan_cons_ne (by decide),
      scan_cons_ne (by decide)]
    rw [scan_cons_i (by simp)]
    rw [scan_cons_ne (by decide), scan_cons_ne (by decide),
      scan_cons_ne (by decide), scan_cons_ne (by decide),
      scan_cons_ne (by decide), scan_cons_ne (by decide),
      scan_cons_ne (by decide), scan_cons_ne (by decide),
      scan_cons_ne (by decide), scan_cons_ne (by decide),
      scan_cons_ne (by decide), scan_cons_ne (by decide)]
    rw [scan_cons_i (by simp)]
    rw [scan_cons_ne (by decide), scan_cons_ne (by decide),
      scan_cons_ne (by decide)]
    rw [scan_skip hD]
    rw [scan_cons_ne (by decide)]
    have htw : (icon_id ++ (str "&format=" ++ pyQuotePlus fmt)).takeWhile isIdChar =
        icon_id :=
      takeWhile_append_first hid (fun c hc => by
        have hc2 : c = '&' := by
          simp only [str] at hc
          simp at hc
          exact hc.symm
        subst hc2
        decide)
    rw [scanIdParam]
    rw [if_pos ⟨rfl, rfl, by
      show (('d' :: '=' ::
        (icon_id ++ (str "&format=" ++ pyQuotePlus fmt))).drop 2).takeWhile
          isIdChar ≠ []
      rw [show ('d' :: '=' ::
        (icon_id ++ (str "&format=" ++ pyQuotePlus fmt))).drop 2 =
          icon_id ++ (str "&format=" ++ pyQuotePlus fmt) from rfl]
      rw [htw]
      exact hne⟩]
    rw [show ('d' :: '=' ::
      (icon_id ++ (str "&format=" ++ pyQuotePlus fmt))).drop 2 =
        icon_id ++ (str "&format=" ++ pyQuotePlus fmt) from rfl]
    rw [htw]

/-- C10 amended witness: a concrete id round-trips. -/
theorem C10_build_validate_extract_witness :
    validate_download_url (build_icon_url (str "abc-123_X") 256 (str "png")) =
      .ok () ∧
    extract_icon_id_from_url (build_icon_url (str "abc-123_X") 256 (str "png")) =
      some (str "abc-123_X") :=
  C10_build_validate_extract (str "abc-123_X") 256 (str "png")
    (by decide) (by decide)

/-! ## The custom ICO container writer
     (src/src/icons8_collector/converter.py,
     `SVGConverter._write_custom_ico` lines 190-239)

An image is modelled by its resolution key and its PNG-encoded bytes
(the PIL `img.save(bio, format="PNG")` output, opaque here).  Each
`int.to_bytes(k, "little")` is fallible (Python raises `OverflowError`
when the value does not fit), hence `Option`. -/

/-- Little-endian byte rendering, `k` bytes. -/
def bytesLE : Nat → Nat → List Nat
  | 0, _ => []
  | k + 1, n => n % 256 :: bytesLE k (n / 256)

/-- `n.to_bytes(k, "little")`: fails when the value does not fit. -/
def toBytesLE (k n : Nat) : Option (List Nat) :=
  if n < 256 ^ k then some (bytesLE k n) else none

/-- The width/height byte: the resolution, with 256 (and anything
    larger) encoded as 0 (`size if size < 256 else 0`). -/
def encDim (size : Nat) : Nat := if size < 256 then size else 0

/-- One 16-byte directory entry: width, height, color count 0, reserved
    0, planes 1, bit count 32, data length, data offset. -/
def icoDirEntry (w h dataLen offset : Nat) : Option (List Nat) := do
  let wb ← toBytesLE 1 w
  let hb ← toBytesLE 1 h
  let lenb ← toBytesLE 4 dataLen
  let offb ← toBytesLE 4 offset
  pure (wb ++ hb ++ [0, 0] ++ [1, 0] ++ [32, 0] ++ lenb ++ offb)

/-- The directory loop: one entry per blob, offsets accumulated by each
    blob's data length. -/
def icoDirectory : List (Nat × List Nat) → Nat → Option (List Nat)
  | [], _ => some []
  | b :: bs, offset => do
    let e ← icoDirEntry (encDim b.1) (encDim b.1) b.2.length offset
    let rest ← icoDirectory bs (offset + b.2.length)
    pure (e ++ rest)

/-- `sorted(images.keys(), reverse=True)` on the mapping's entries. -/
def sortBlobsDesc (images : List (Nat × List Nat)) : List (Nat × List Nat) :=
  images.mergeSort (fun a b => b.1 ≤ a.1)

/-- `_write_custom_ico`: 6-byte header (2 reserved zero bytes, type 1
    little-endian, entry count little-endian), the 16-byte directory
    entries with offsets starting at `6 + 16 * count`, then the PNG
    blobs in the same (descending-resolution) order. -/
def write_custom_ico (images : List (Nat × List Nat)) : Option (List Nat) := do
  let blobs := sortBlobsDesc images
  let cnt ← toBytesLE 2 blobs.length
  let dir ← icoDirectory blobs (6 + 16 * blobs.length)
  pure ([0, 0] ++ [1, 0] ++ cnt ++ dir ++ (blobs.map (fun b => b.2)).flatten)

/-! Reader for the round-trip claim: parse the header and the directory
back out of the emitted bytes. -/

structure IcoEntry where
  width : Nat
  height : Nat
  colors : Nat
  reserved : Nat
  planes : Nat
  bitCount : Nat
  byteLen : Nat
  offset : Nat
  deriving DecidableEq, Repr

/-- Little-endian byte-list decoding. -/
def decLE (bs : List Nat) : Nat := bs.foldr (fun b acc => b + 256 * acc) 0

/-- Read one 16-byte directory entry off the front. -/
def parseEntry : List Nat → Option (IcoEntry × List Nat)
  | w :: h :: c :: r :: p1 :: p2 :: b1 :: b2 ::
      l1 :: l2 :: l3 :: l4 :: o1 :: o2 :: o3 :: o4 :: rest =>
    some (⟨w, h, c, r, decLE [p1, p2], decLE [b1, b2],
      decLE [l1, l2, l3, l4], decLE [o1, o2, o3, o4]⟩, rest)
  | _ => none

def parseEntries : Nat → List Nat → Option (List IcoEntry)
  | 0, _ => some []
  | n + 1, bs => do
    let (e, rest) ← parseEntry bs
    let es ← parseEntries n rest
    pure (e :: es)

/-- Read the 6-byte header and the declared number of entries. -/
def parseIcoDirectory (bs : List Nat) : Option (Nat × List IcoEntry) :=
  match bs with
  | 0 :: 0 :: 1 :: 0 :: c1 :: c2 :: rest => do
    let es ← parseEntries (decLE [c1, c2]) rest
    pure (decLE [c1, c2], es)
  | _ => none

/-- The directory the writer is specified to produce, entry by entry. -/
def expectedEntries : List (Nat × List Nat) → Nat → List IcoEntry
  | [], _ => []
  | b :: bs, offset =>
    ⟨encDim b.1, encDim b.1, 0, 0, 1, 32, b.2.length, offset⟩ ::
      expectedEntries bs (offset + b.2.length)

lemma bytesLE_length (k n : Nat) : (bytesLE k n).length = k := by
  induction k generalizing n with
  | zero => rfl
  | succ k ih => simp [bytesLE, ih]

lemma decLE_bytesLE (k n : Nat) (h : n < 256 ^ k) :
    decLE (bytesLE k n) = n := by
  induction k generalizing n with
  | zero =>
    simp only [Nat.pow_zero, Nat.lt_one_iff] at h
    subst h
    rfl
  | succ k ih =>
    rw [bytesLE]
    unfold decLE
    rw [List.foldr_cons]
    have hdiv : n / 256 < 256 ^ k := by
      rw [Nat.div_lt_iff_lt_mul (by omega)]
      calc n < 256 ^ (k + 1) := h
        _ = 256 ^ k * 256 := by ring
    have := ih (n / 256) hdiv
    unfold decLE at this
    rw [this]
    omega

lemma encDim_lt (size : Nat) : encDim size < 256 := by
  unfold encDim
  by_cases h : size < 256
  · rw [if_pos h]; exact h
  · rw [if_neg h]; omega

lemma expectedEntries_length (bs : List (Nat × List Nat)) (off : Nat) :
    (expectedEntries bs off).length = bs.length := by
  induction bs generalizing off with
  | nil => rfl
  | cons b t ih => simp [expectedEntries, ih]

lemma sum_take_succ_nat (L : List Nat) (i : Nat) (h : i < L.length) :
    (L.take (i + 1)).sum = (L.take i).sum + L.get ⟨i, h⟩ := by
  induction L generalizing i with
  | nil => cases h
  | cons a t ih =>
    cases i with
    | zero => simp
    | succ i =>
      simp only [List.take_succ_cons, List.sum_cons, List.get_cons_succ]
      rw [ih i (by simpa using h)]
      omega

lemma sum_take_mono_nat (L : List Nat) {i j : Nat} (h : i ≤ j) :
    (L.take i).sum ≤ (L.take j).sum := by
  rw [show j = i + (j - i) from by omega, List.take_add]
  rw [List.sum_append]
  omega

lemma sum_take_le_nat (L : List Nat) (i : Nat) : (L.take i).sum ≤ L.sum := by
  conv_rhs => rw [← List.take_append_drop i L]
  rw [List.sum_append]
  omega

/-- Extracting blob `i` from the flattened data region. -/
lemma flatten_extract (bsdata : List (List Nat)) (i : Nat)
    (h : i < bsdata.length) :
    ((bsdata.flatten).drop (((bsdata.take i).map List.length).sum)).take
        ((bsdata.get ⟨i, h⟩).length) = bsdata.get ⟨i, h⟩ := by
  induction bsdata generalizing i with
  | nil => cases h
  | cons b t ih =>
    cases i with
    | zero =>
      simp only [List.take_zero, List.map_nil, List.sum_nil, List.drop_zero,
        List.get_cons_zero, List.flatten_cons]
      exact List.take_left b t.flatten
    | succ i =>
      simp only [List.take_succ_cons, List.map_cons, List.sum_cons,
        List.get_cons_succ, List.flatten_cons]
      rw [← List.drop_drop]
      rw [List.drop_left]
      exact ih i (by simpa using h)

lemma icoDirEntry_some (w h len off : Nat) (hw : w < 256) (hh : h < 256)
    (hlen : len < 2 ^ 32) (hoff : off < 2 ^ 32) :
    icoDirEntry w h len off =
      some ([w, h, 0, 0, 1, 0, 32, 0] ++ bytesLE 4 len ++ bytesLE 4 off) := by
  unfold icoDirEntry toBytesLE
  rw [if_pos (show w < 256 ^ 1 by simpa using hw)]
  rw [if_pos (show h < 256 ^ 1 by simpa using hh)]
  rw [if_pos (show len < 256 ^ 4 by
    have : (256 : Nat) ^ 4 = 2 ^ 32 := by norm_num
    omega)]
  rw [if_pos (show off < 256 ^ 4 by
    have : (256 : Nat) ^ 4 = 2 ^ 32 := by norm_num
    omega)]
  simp [bytesLE, Nat.mod_eq_of_lt hw, Nat.mod_eq_of_lt hh]

lemma parseEntry_front (w h len off : Nat) (rest : List Nat) :
    parseEntry (([w, h, 0, 0, 1, 0, 32, 0] ++ bytesLE 4 len ++ bytesLE 4 off) ++
        rest) =
      some (⟨w, h, 0, 0, decLE [1, 0], decLE [32, 0],
        decLE (bytesLE 4 len), decLE (bytesLE 4 off)⟩, rest) := rfl

lemma icoDirectory_spec (blobs : List (Nat × List Nat)) (offset : Nat)
    (hfit : offset + ((blobs.map (fun b => b.2.length)).sum) < 2 ^ 32) :
    ∃ dir, icoDirectory blobs offset = some dir ∧
      dir.length = 16 * blobs.length ∧
      ∀ tail, parseEntries blobs.length (dir ++ tail) =
        some (expectedEntries blobs offset) := by
  induction blobs generalizing offset with
  | nil => exact ⟨[], rfl, rfl, fun tail => rfl⟩
  | cons b bs ih =>
    have hlen : b.2.length < 2 ^ 32 := by
      simp only [List.map_cons, List.sum_cons] at hfit
      omega
    have hoff : offset < 2 ^ 32 := by
      simp only [List.map_cons, List.sum_cons] at hfit
      omega
    have hfit2 : offset + b.2.length +
        ((bs.map (fun b => b.2.length)).sum) < 2 ^ 32 := by
      simp only [List.map_cons, List.sum_cons] at hfit
      omega
    obtain ⟨dir2, hdir2, hlen2, hparse2⟩ := ih (offset + b.2.length) hfit2
    refine ⟨([encDim b.1, encDim b.1, 0, 0, 1, 0, 32, 0] ++
      bytesLE 4 b.2.length ++ bytesLE 4 offset) ++ dir2, ?_, ?_, ?_⟩
    · show (icoDirEntry (encDim b.1) (encDim b.1) b.2.length offset).bind
        (fun e => (icoDirectory bs (offset + b.2.length)).bind
          (fun rest => some (e ++ rest))) = _
      rw [icoDirEntry_some _ _ _ _ (encDim_lt b.1) (encDim_lt b.1) hlen hoff]
      rw [hdir2]
      rfl
    · have h4a := bytesLE_length 4 b.2.length
      have h4b := bytesLE_length 4 offset
      simp only [List.length_append, List.length_cons, List.length_nil,
        List.length_cons, h4a, h4b, hlen2]
      omega
    · intro tail
      show parseEntries (bs.length + 1) _ = _
      rw [parseEntries]
      rw [List.append_assoc]
      rw [parseEntry_front]
      show (parseEntries bs.length (dir2 ++ tail)).bind _ = _
      rw [hparse2 tail]
      show some _ = _
      rw [expectedEntries]
      rw [decLE_bytesLE 4 _ hlen, decLE_bytesLE 4 _ hoff]
      rfl

lemma expectedEntries_get (bs : List (Nat × List Nat)) (off i : Nat)
    (h : i < (expectedEntries bs off).length) (h2 : i < bs.length) :
    (expectedEntries bs off).get ⟨i, h⟩ =
      ⟨encDim (bs.get ⟨i, h2⟩).1, encDim (bs.get ⟨i, h2⟩).1, 0, 0, 1, 32,
        (bs.get ⟨i, h2⟩).2.length,
        off + (((bs.take i).map (fun b => b.2.length)).sum)⟩ := by
  induction bs generalizing off i with
  | nil => cases h2
  | cons b t ih =>
    cases i with
    | zero => simp [expectedEntries]
    | succ i =>
      have hlt : i < (expectedEntries t (off + b.2.length)).length := by
        rw [expectedEntries_length]
        simpa using h2
      have hlt2 : i < t.length := by simpa using h2
      show (expectedEntries t (off + b.2.length)).get ⟨i, hlt⟩ = _
      rw [ih (off + b.2.length) i hlt hlt2]
      simp only [List.get_cons_succ, List.take_succ_cons, List.map_cons,
        List.sum_cons]
      congr 1
      omega

/-- C1: the custom ICO writer emits exactly the claimed layout, and
    re-reading the directory reports the right count, dimensions (256
    encoded as 0), constant fields, lengths, cumulative offsets starting
    at 6 + 16*N, non-overlapping byte ranges, and each range holds
    exactly the corresponding PNG bytes, in descending-resolution
    order. -/
theorem C1_ico_write_roundtrip (images : List (Nat × List Nat))
    (hne : images ≠ [])
    (hN : images.length < 2 ^ 16)
    (hfit : 6 + 16 * images.length +
      ((images.map (fun b => b.2.length)).sum) < 2 ^ 32) :
    ∃ out entries,
      write_custom_ico images = some out ∧
      (sortBlobsDesc images).Perm images ∧
      List.Pairwise (fun a b : Nat × List Nat => b.1 ≤ a.1)
        (sortBlobsDesc images) ∧
      out.length = 6 + 16 * images.length +
        ((images.map (fun b => b.2.length)).sum) ∧
      out.take 6 = [0, 0, 1, 0] ++ bytesLE 2 images.length ∧
      out.drop (6 + 16 * images.length) =
        ((sortBlobsDesc images).map (fun b => b.2)).flatten ∧
      parseIcoDirectory out = some (images.length, entries) ∧
      entries ≠ [] ∧
      entries.length = images.length ∧
      (∀ i (hi : i < entries.length) (hb : i < (sortBlobsDesc images).length),
        (entries.get ⟨i, hi⟩).width = encDim ((sortBlobsDesc images).get ⟨i, hb⟩).1 ∧
        (entries.get ⟨i, hi⟩).height = encDim ((sortBlobsDesc images).get ⟨i, hb⟩).1 ∧
        (entries.get ⟨i, hi⟩).colors = 0 ∧
        (entries.get ⟨i, hi⟩).reserved = 0 ∧
        (entries.get ⟨i, hi⟩).planes = 1 ∧
        (entries.get ⟨i, hi⟩).bitCount = 32 ∧
        (entries.get ⟨i, hi⟩).byteLen =
          ((sortBlobsDesc images).get ⟨i, hb⟩).2.length ∧
        (entries.get ⟨i, hi⟩).offset = 6 + 16 * images.length +
          ((((sortBlobsDesc images).take i).map (fun b => b.2.length)).sum) ∧
        (out.drop (entries.get ⟨i, hi⟩).offset).take
            (entries.get ⟨i, hi⟩).byteLen =
          ((sortBlobsDesc images).get ⟨i, hb⟩).2) ∧
      (∀ i j (hi : i < entries.length) (hj : j < entries.length), i < j →
        (entries.get ⟨i, hi⟩).offset + (entries.get ⟨i, hi⟩).byteLen ≤
          (entries.get ⟨j, hj⟩).offset) := by
  have hperm : (sortBlobsDesc images).Perm images :=
    List.mergeSort_perm images _
  have hlenb : (sortBlobsDesc images).length = images.length :=
    hperm.length_eq
  have hsum : ((sortBlobsDesc images).map (fun b => b.2.length)).sum =
      (images.map (fun b => b.2.length)).sum :=
    (hperm.map (fun b => b.2.length)).sum_eq
  have hsorted : List.Pairwise (fun a b : Nat × List Nat => b.1 ≤ a.1)
      (sortBlobsDesc images) := by
    have hs := @List.sorted_mergeSort (Nat × List Nat)
      (fun a b : Nat × List Nat => decide (b.1 ≤ a.1))
      (fun a b c hab hbc => by
        simp only [decide_eq_true_eq] at hab hbc ⊢
        omega)
      (fun a b => by
        simp only [Bool.or_eq_true, decide_eq_true_eq]
        omega)
      images
    exact hs.imp (fun h => by simpa using h)
  obtain ⟨dir, hdir, hdirlen, hparse⟩ := icoDirectory_spec (sortBlobsDesc images)
    (6 + 16 * images.length)
    (by rw [hsum]; exact hfit)
  have hcnt : toBytesLE 2 images.length = some (bytesLE 2 images.length) := by
    unfold toBytesLE
    rw [if_pos (by
      have : (256 : Nat) ^ 2 = 2 ^ 16 := by norm_num
      omega)]
  have hout : write_custom_ico images =
      some ([0, 0] ++ [1, 0] ++ bytesLE 2 images.length ++
        dir ++ ((sortBlobsDesc images).map (fun b => b.2)).flatten) := by
    show (toBytesLE 2 (sortBlobsDesc images).length).bind (fun cnt =>
      (icoDirectory (sortBlobsDesc images)
        (6 + 16 * (sortBlobsDesc images).length)).bind (fun d =>
        some ([0, 0] ++ [1, 0] ++ cnt ++ d ++
          ((sortBlobsDesc images).map (fun b => b.2)).flatten))) = _
    rw [hlenb]
    rw [hcnt, hdir]
    rfl
  have hflatlen : (((sortBlobsDesc images).map (fun b => b.2)).flatten).length =
      (images.map (fun b => b.2.length)).sum := by
    rw [List.length_flatten]
    rw [List.map_map]
    rw [show (List.length ∘ fun b : Nat × List Nat => b.2) =
      (fun b : Nat × List Nat => b.2.length) from rfl]
    exact hsum
  have hb2 : bytesLE 2 images.length =
      [images.length % 256, images.length / 256 % 256] := by
    simp [bytesLE]
  refine ⟨_, expectedEntries (sortBlobsDesc images)
    (6 + 16 * images.length), hout, hperm, hsorted, ?_, ?_, ?_,
    ?_, ?_, ?_, ?_, ?_⟩
  · simp only [List.length_append, hdirlen, hflatlen, bytesLE_length, hlenb,
      List.length_cons, List.length_nil]
    try omega
  · rw [hb2]
    rfl
  · have hpre : (([0, 0] ++ [1, 0] ++ bytesLE 2 images.length ++
        dir) : List Nat).length = 6 + 16 * images.length := by
      simp only [List.length_append, hdirlen, bytesLE_length, hlenb,
        List.length_cons, List.length_nil]
      try omega
    rw [show ([0, 0] ++ [1, 0] ++ bytesLE 2 images.length ++
        dir ++ ((sortBlobsDesc images).map
          (fun b : Nat × List Nat => b.2)).flatten : List Nat) =
      (([0, 0] ++ [1, 0] ++ bytesLE 2 images.length ++ dir) ++
        ((sortBlobsDesc images).map
          (fun b : Nat × List Nat => b.2)).flatten) by
      simp [List.append_assoc]]
    exact List.drop_left' hpre
  · rw [hb2]
    show (parseEntries
        (decLE [images.length % 256, images.length / 256 % 256])
        (dir ++ ((sortBlobsDesc images).map (fun b => b.2)).flatten)).bind
      (fun es => some (decLE [images.length % 256,
        images.length / 256 % 256], es)) = _
    have hdec : decLE [images.length % 256, images.length / 256 % 256] =
        images.length := by
      rw [show [images.length % 256, images.length / 256 % 256] =
          bytesLE 2 images.length by simp [bytesLE]]
      exact decLE_bytesLE 2 _ (by
        have : (256 : Nat) ^ 2 = 2 ^ 16 := by norm_num
        omega)
    rw [hdec]
    have hcount : parseEntries images.length
        (dir ++ ((sortBlobsDesc images).map (fun b => b.2)).flatten) =
        parseEntries (sortBlobsDesc images).length
          (dir ++ ((sortBlobsDesc images).map (fun b => b.2)).flatten) := by
      rw [hlenb]
    rw [hcount, hparse]
    rfl
  · intro hcontra
    have := congrArg List.length hcontra
    rw [expectedEntries_length] at this
    rw [hlenb] at this
    simp at this
    exact hne this
  · rw [expectedEntries_length, hlenb]
  · intro i hi hb
    have hget := expectedEntries_get (sortBlobsDesc images)
      (6 + 16 * images.length) i hi hb
    rw [hget]
    refine ⟨rfl, rfl, rfl, rfl, rfl, rfl, rfl, rfl, ?_⟩
    have hdropbase : (([0, 0] ++ [1, 0] ++
        bytesLE 2 images.length ++ dir) : List Nat).length =
        6 + 16 * images.length := by
      simp only [List.length_append, hdirlen, bytesLE_length, hlenb,
        List.length_cons, List.length_nil]
      try omega
    show ((([0, 0] ++ [1, 0] ++ bytesLE 2 images.length ++
        dir ++ ((sortBlobsDesc images).map
          (fun b : Nat × List Nat => b.2)).flatten)).drop
        (6 + 16 * images.length +
          (((sortBlobsDesc images).take i).map
            (fun b : Nat × List Nat => b.2.length)).sum)).take
        ((sortBlobsDesc images).get ⟨i, hb⟩).2.length = _
    rw [show ([0, 0] ++ [1, 0] ++ bytesLE 2 images.length ++
        dir ++ ((sortBlobsDesc images).map
          (fun b : Nat × List Nat => b.2)).flatten : List Nat) =
      (([0, 0] ++ [1, 0] ++ bytesLE 2 images.length ++ dir) ++
        ((sortBlobsDesc images).map
          (fun b : Nat × List Nat => b.2)).flatten) by
      simp [List.append_assoc]]
    rw [← List.drop_drop]
    rw [List.drop_left' hdropbase]
    have hmapget : (((sortBlobsDesc images).map (fun b => b.2)).get
        ⟨i, by simpa using hb⟩) = ((sortBlobsDesc images).get ⟨i, hb⟩).2 := by
      simp
    have hmaptake : ((((sortBlobsDesc images).map (fun b => b.2)).take i).map
        List.length).sum =
        (((sortBlobsDesc images).take i).map (fun b => b.2.length)).sum := by
      rw [← List.map_take, List.map_map]
      rfl
    have hfe := flatten_extract ((sortBlobsDesc images).map (fun b => b.2)) i
      (by simpa using hb)
    rw [hmapget, hmaptake] at hfe
    exact hfe
  · intro i j hi hj hij
    have hbi : i < (sortBlobsDesc images).length := by
      rw [hlenb]
      rw [expectedEntries_length, hlenb] at hi
      exact hi
    have hbj : j < (sortBlobsDesc images).length := by
      rw [hlenb]
      rw [expectedEntries_length, hlenb] at hj
      exact hj
    rw [expectedEntries_get _ _ i hi hbi, expectedEntries_get _ _ j hj hbj]
    simp only
    have hstep : ((((sortBlobsDesc images).take (i + 1)).map
        (fun b => b.2.length)).sum) =
        ((((sortBlobsDesc images).take i).map (fun b => b.2.length)).sum) +
          ((sortBlobsDesc images).get ⟨i, hbi⟩).2.length := by
      simp only [List.map_take]
      refine sum_take_succ_nat ((sortBlobsDesc images).map
        (fun b => b.2.length)) i (by simpa using hbi) |>.trans ?_
      congr 1
      simp
    have hmono : ((((sortBlobsDesc images).take (i + 1)).map
        (fun b => b.2.length)).sum) ≤
        ((((sortBlobsDesc images).take j).map (fun b => b.2.length)).sum) := by
      simp only [List.map_take]
      exact sum_take_mono_nat _ (by omega)
    omega

/-- C1 witness: a concrete two-image mapping (16 px and 256 px)
    satisfies the hypotheses. -/
theorem C1_ico_write_roundtrip_witness :
    ∃ out entries,
      write_custom_ico [(16, [1, 2, 3]), (256, [4, 5, 6, 7])] = some out ∧
      parseIcoDirectory out = some (2, entries) ∧ entries.length = 2 := by
  obtain ⟨out, entries, h1, _, _, _, _, _, h7, _, h9, _⟩ :=
    C1_ico_write_roundtrip [(16, [1, 2, 3]), (256, [4, 5, 6, 7])]
      (by decide) (by decide) (by decide)
  exact ⟨out, entries, h1, h7, h9⟩

/-! ## Error-message redaction
     (src/icons8_collector/exceptions.py,
     `Icons8CollectorError._sanitize_message` lines 24-41 and
     `__init__` lines 11-22)

The two `re.sub` calls are modelled with explicit leftmost-greedy
matchers.  Regex `\w` is modelled by ASCII word characters (Python's
`\w` additionally matches non-ASCII word characters; the allow/deny
structure of the proofs does not depend on that difference). -/

/-- Regex `\w` (ASCII model). -/
def isWordChar (c : Char) : Bool := c.isAlphanum || c = '_'

/-- The email pattern's repeated class `[\w\.-]`. -/
def isAChar (c : Char) : Bool := isWordChar c || c = '.' || c = '-'

/-- Regex `\s`. -/
def isSpaceChar (c : Char) : Bool :=
  c = ' ' || c = '\t' || c = '\n' || c = '\r' || c = '\x0b' || c = '\x0c'

/-- The credential pattern's separator class `[=:\s]`. -/
def isSepChar (c : Char) : Bool := c = '=' || c = ':' || isSpaceChar c

/-- A string matching the email regex `[\w\.-]+@[\w\.-]+\.\w+` in
    full. -/
def matchesEmail (b : List Char) : Prop :=
  ∃ x y z, b = x ++ '@' :: (y ++ '.' :: z) ∧
    x ≠ [] ∧ (∀ c ∈ x, isAChar c = true) ∧
    y ≠ [] ∧ (∀ c ∈ y, isAChar c = true) ∧
    z ≠ [] ∧ (∀ c ∈ z, isWordChar c = true)

/-- Some substring matches the email regex. -/
def containsEmail (l : List Char) : Prop :=
  ∃ pre b post, l = pre ++ b ++ post ∧ matchesEmail b

/-- The leftmost-greedy email match starting exactly at the head:
    the first `[\w\.-]+` is the maximal class run (forced, since `@` is
    not in the class), then `@`, then the longest split of the following
    class run into `[\w\.-]+` `\.` `\w+`. -/
def matchEmailAt (l : List Char) : Option Nat :=
  let x := l.takeWhile isAChar
  if x = [] then none
  else
    match l.drop x.length with
    | '@' :: rest =>
      let r := rest.takeWhile isAChar
      match ((List.range (r.length + 1)).reverse).find? (fun i =>
        decide (1 ≤ i) && (r.get? i == some '.') &&
          (match r.get? (i + 1) with
           | some c => isWordChar c
           | none => false)) with
      | some i => some (x.length + 1 + i + 1 +
          ((rest.drop (i + 1)).takeWhile isWordChar).length)
      | none => none
    | _ => none

/-- `re.search` for the email pattern: first start position with a
    match, and the greedy match length there. -/
def findEmail : List Char → Option (Nat × Nat)
  | [] => none
  | l@(_ :: rest) =>
    match matchEmailAt l with
    | some n => some (0, n)
    | none => (findEmail rest).map (fun p => (p.1 + 1, p.2))

/-- `re.sub` for the email pattern: replace each successive leftmost
    match with `[EMAIL REDACTED]` and continue after it. -/
def subEmails : Nat → List Char → List Char
  | 0, l => l
  | fuel + 1, l =>
    match findEmail l with
    | none => l
    | some (s, n) =>
      l.take s ++ str "[EMAIL REDACTED]" ++ subEmails fuel (l.drop (s + n))

def sub_email_addresses (l : List Char) : List Char := subEmails l.length l

/-- The alternation `(password|token|secret|key|auth)`, in source
    order. -/
def KW_LIST : List (List Char) :=
  [str "password", str "token", str "secret", str "key", str "auth"]

/-- Case-insensitive literal prefix test. -/
def ciHasPrefix (kw t : List Char) : Bool := lowerL (t.take kw.length) == kw

/-- The leftmost-greedy credential match at the head:
    one alternation keyword (they have pairwise distinct first letters,
    so at most one can apply), then the longest separator run
    `[=:\s]+` that still leaves a non-space character for `[^\s]+`,
    then the maximal non-space value.  Returns (keyword length,
    separator length, value length). -/
def matchCredAt (l : List Char) : Option (Nat × Nat × Nat) :=
  match KW_LIST.find? (fun kw => ciHasPrefix kw l) with
  | none => none
  | some kw =>
    let t := l.drop kw.length
    let run := t.takeWhile isSepChar
    match ((List.range (run.length + 1)).reverse).find? (fun j =>
      decide (1 ≤ j) && (match t.get? j with
        | some c => !isSpaceChar c
        | none => false)) with
    | some j => some (kw.length, j,
        ((t.drop j).takeWhile (fun c => !isSpaceChar c)).length)
    | none => none

/-- `re.search` for the credential pattern. -/
def findCred : List Char → Option (Nat × Nat × Nat × Nat)
  | [] => none
  | l@(_ :: rest) =>
    match matchCredAt l with
    | some (a, b, c) => some (0, a, b, c)
    | none => (findCred rest).map (fun q => (q.1 + 1, q.2))

/-- `re.sub` for the credential pattern with replacement
    `\1=[REDACTED]`: the keyword is kept in its original case, the
    separator and value are replaced. -/
def subCreds : Nat → List Char → List Char
  | 0, l => l
  | fuel + 1, l =>
    match findCred l with
    | none => l
    | some (s, kwLen, j, vlen) =>
      l.take s ++ (l.drop s).take kwLen ++ '=' :: str "[REDACTED]" ++
        subCreds fuel (l.drop (s + (kwLen + j + vlen)))

def sub_credentials (l : List Char) : List Char := subCreds l.length l

/-- `Icons8CollectorError._sanitize_message`: emails first, then
    credential values. -/
def sanitize_message (message : List Char) : List Char :=
  sub_credentials (sub_email_addresses message)

/-- `Icons8CollectorError.__init__` (and every subclass, all of which
    delegate to it): the stored message is the sanitized one. -/
def mkError (kind : ErrKind) (message : List Char) : CollectorErr :=
  ⟨kind, sanitize_message message⟩

example : sanitize_message (str "password=hunter2") =
    str "password=[REDACTED]" := by decide

example : sanitize_message (str "contact user@example.com now") =
    str "contact [EMAIL REDACTED] now" := by decide

example : sanitize_message (str "login a@b.com PASSWORD: s3cret x") =
    str "login [EMAIL REDACTED] PASSWORD=[REDACTED] x" := by decide

/-! ### Generic list helpers for the redaction proofs -/

lemma takeWhile_append_all {p : Char → Bool} {l₁ : List Char}
    (h : ∀ c ∈ l₁, p c = true) (l₂ : List Char) :
    (l₁ ++ l₂).takeWhile p = l₁ ++ l₂.takeWhile p := by
  induction l₁ with
  | nil => simp
  | cons c t ih =>
    simp only [List.cons_append, List.takeWhile_cons]
    rw [h c (by simp)]
    simp only [if_true]
    rw [ih (fun x hx => h x (by simp [hx]))]

lemma takeWhile_maximal {p : Char → Bool} :
    ∀ {l : List Char} {c : Char},
      l.get? (l.takeWhile p).length = some c → p c = false := by
  intro l
  induction l with
  | nil => intro c h; simp at h
  | cons a t ih =>
    intro c h
    by_cases hp : p a = true
    · rw [List.takeWhile_cons, if_pos hp] at h
      exact ih (by simpa using h)
    · rw [List.takeWhile_cons, if_neg hp] at h
      simp only [List.length_nil, List.get?] at h
      cases h
      simpa using hp

/-- Where a substring of an appended list can sit: fully in the left
    part, fully in the right part, or straddling the seam. -/
lemma substring_split {u v pre b post : List Char}
    (h : u ++ v = pre ++ (b ++ post)) :
    (∃ q, u = pre ++ (b ++ q)) ∨
    (∃ p, pre = u ++ p ∧ v = p ++ (b ++ post)) ∨
    (∃ b₁ b₂, b = b₁ ++ b₂ ∧ b₁ ≠ [] ∧ b₂ ≠ [] ∧
      u = pre ++ b₁ ∧ v = b₂ ++ post) := by
  by_cases h1 : pre.length + b.length ≤ u.length
  · left
    have hu : u = (pre ++ (b ++ post)).take u.length := by
      rw [← h, List.take_left]
    rw [List.take_append_eq_append_take, List.take_append_eq_append_take,
      List.take_of_length_le (by omega),
      List.take_of_length_le (show b.length ≤ u.length - pre.length by
        omega)] at hu
    exact ⟨post.take (u.length - pre.length - b.length), hu⟩
  · by_cases h2 : u.length ≤ pre.length
    · right; left
      have ht : (pre ++ (b ++ post)).take u.length = u := by
        rw [← h]; exact List.take_left u v
      rw [List.take_append_eq_append_take,
        Nat.sub_eq_zero_of_le h2, List.take_zero, List.append_nil] at ht
      have hpre : pre = u ++ pre.drop u.length := by
        conv_lhs => rw [← List.take_append_drop u.length pre]
        rw [ht]
      have hv : v = pre.drop u.length ++ (b ++ post) := by
        have hd : (pre ++ (b ++ post)).drop u.length = v := by
          rw [← h]; exact List.drop_left u v
        rw [List.drop_append_eq_append_drop,
          Nat.sub_eq_zero_of_le h2, List.drop_zero] at hd
        exact hd.symm
      exact ⟨pre.drop u.length, hpre, hv⟩
    · right; right
      have hk1 : pre.length < u.length := by omega
      have hk2 : u.length - pre.length < b.length := by omega
      refine ⟨b.take (u.length - pre.length), b.drop (u.length - pre.length),
        (List.take_append_drop _ b).symm, ?_, ?_, ?_, ?_⟩
      · intro hnil
        have hlen : (b.take (u.length - pre.length)).length =
            u.length - pre.length := by
          rw [List.length_take, Nat.min_eq_left (le_of_lt hk2)]
        rw [hnil] at hlen
        simp only [List.length_nil] at hlen
        omega
      · intro hnil
        have hlen : (b.drop (u.length - pre.length)).length =
            b.length - (u.length - pre.length) := List.length_drop _ _
        rw [hnil] at hlen
        simp only [List.length_nil] at hlen
        omega
      · have hu : u = (pre ++ (b ++ post)).take u.length := by
          rw [← h, List.take_left]
        rw [List.take_append_eq_append_take, List.take_append_eq_append_take,
          List.take_of_length_le (le_of_lt hk1),
          Nat.sub_eq_zero_of_le (le_of_lt hk2), List.take_zero,
          List.append_nil] at hu
        exact hu
      · have hv : (pre ++ (b ++ post)).drop u.length = v := by
          rw [← h]; exact List.drop_left u v
        rw [List.drop_append_eq_append_drop, List.drop_append_eq_append_drop,
          List.drop_eq_nil_of_le (le_of_lt hk1),
          Nat.sub_eq_zero_of_le (le_of_lt hk2), List.drop_zero,
          List.nil_append] at hv
        exact hv.symm

/-! ### Email-pattern facts -/

lemma email_chars {b : List Char} (hb : matchesEmail b) :
    (∀ c ∈ b, (isAChar c || c = '@') = true) ∧ '@' ∈ b ∧ b ≠ [] := by
  obtain ⟨x, y, z, hbe, _, hx, _, hy, _, hz⟩ := hb
  subst hbe
  refine ⟨?_, by simp, by simp⟩
  intro c hc
  simp only [List.mem_append, List.mem_cons] at hc
  rcases hc with hc | hc | hc | hc | hc
  · simp [hx c hc]
  · simp [hc]
  · simp [hy c hc]
  · subst hc; decide
  · have := hz c hc
    simp [isAChar, this]

lemma noEmail_nil : ¬ containsEmail ([] : List Char) := by
  rintro ⟨pre, b, post, heq, hb⟩
  obtain ⟨-, hat, -⟩ := email_chars hb
  have : b = [] := by
    rcases List.append_eq_nil.mp
      (List.append_eq_nil.mp heq.symm).1 with ⟨-, hb2⟩
    exact hb2
  rw [this] at hat
  simp at hat

lemma containsEmail_of_take {l : List Char} {k : Nat}
    (h : containsEmail (l.take k)) : containsEmail l := by
  obtain ⟨pre, b, post, heq, hb⟩ := h
  refine ⟨pre, b, post ++ l.drop k, ?_, hb⟩
  conv_lhs => rw [← List.take_append_drop k l]
  rw [heq]
  simp [List.append_assoc]

lemma containsEmail_of_drop {l : List Char} {k : Nat}
    (h : containsEmail (l.drop k)) : containsEmail l := by
  obtain ⟨pre, b, post, heq, hb⟩ := h
  refine ⟨l.take k ++ pre, b, post, ?_, hb⟩
  conv_lhs => rw [← List.take_append_drop k l]
  rw [heq]
  simp [List.append_assoc]

/-- Splicing a marker between two email-free pieces keeps the result
    email-free, provided the marker starts with a character outside the
    email alphabet, every suffix of it contains one, and it has no `@`. -/
lemma noEmail_splice {U M V : List Char}
    (hU : ¬ containsEmail U) (hV : ¬ containsEmail V)
    (hM : M ≠ [])
    (hhead : ∀ c, M.head? = some c → (isAChar c || c = '@') = false)
    (hsuf : ∀ k, k < M.length → ∃ c ∈ M.drop k, (isAChar c || c = '@') = false)
    (hat : '@' ∉ M) :
    ¬ containsEmail (U ++ (M ++ V)) := by
  rintro ⟨pre, b, post, heq, hb⟩
  obtain ⟨hchars, hatb, -⟩ := email_chars hb
  rw [List.append_assoc] at heq
  rcases substring_split heq with ⟨q, hq⟩ | ⟨p, hpre, hMV⟩ |
      ⟨b₁, b₂, hbsplit, hb₁ne, hb₂ne, hU₁, hMV₂⟩
  · exact hU ⟨pre, b, q, by rw [hq, List.append_assoc], hb⟩
  · rcases substring_split hMV with ⟨q, hq⟩ | ⟨p', hp', hVeq⟩ |
        ⟨b₁, b₂, hbsplit, hb₁ne, hb₂ne, hM₁, hV₂⟩
    · exact hat (by rw [hq]; simp [hatb])
    · exact hV ⟨p', b, post, by rw [hVeq, List.append_assoc], hb⟩
    · have hb₁drop : b₁ = M.drop p.length := by
        rw [hM₁, List.drop_left]
      have hplt : p.length < M.length := by
        have := congrArg List.length hM₁
        rw [List.length_append] at this
        have : b₁.length ≠ 0 := by
          intro h0
          exact hb₁ne (List.length_eq_zero.mp h0)
        omega
      obtain ⟨c, hcmem, hcbad⟩ := hsuf p.length hplt
      rw [← hb₁drop] at hcmem
      have : c ∈ b := by rw [hbsplit]; exact List.mem_append_left _ hcmem
      rw [hchars c this] at hcbad
      exact Bool.noConfusion hcbad
  · cases M with
    | nil => exact hM rfl
    | cons mh mt =>
      cases b₂ with
      | nil => exact hb₂ne rfl
      | cons b2h b2t =>
        have : mh = b2h := by
          have := hMV₂
          simp only [List.cons_append] at this
          exact (List.cons.injEq _ _ _ _ ▸ this).1
        have hmem : b2h ∈ b := by
          rw [hbsplit]; exact List.mem_append_right _ (by simp)
        have hgood := hchars b2h hmem
        have hbad := hhead mh rfl
        rw [this] at hbad
        rw [hgood] at hbad
        exact Bool.noConfusion hbad

lemma matchEmailAt_nil : matchEmailAt [] = none := by decide

lemma matchEmailAt_pos {l : List Char} {n : Nat}
    (h : matchEmailAt l = some n) : 1 ≤ n := by
  simp only [matchEmailAt] at h
  split at h
  · exact absurd h (by simp)
  · split at h
    · split at h
      · injection h with h'
        omega
      · exact absurd h (by simp)
    · exact absurd h (by simp)

lemma matchEmailAt_complete {b r : List Char} (hb : matchesEmail b) :
    matchEmailAt (b ++ r) ≠ none := by
  obtain ⟨x, y, z, hbe, hxne, hx, hyne, hy, hzne, hz⟩ := hb
  subst hbe
  have hzA : ∀ c ∈ z, isAChar c = true := fun c hc => by
    simp [isAChar, hz c hc]
  have hform : (x ++ '@' :: (y ++ '.' :: z)) ++ r =
      x ++ ('@' :: (y ++ '.' :: (z ++ r))) := by
    simp [List.append_assoc]
  rw [hform]
  have h1 : (x ++ ('@' :: (y ++ '.' :: (z ++ r)))).takeWhile isAChar = x :=
    takeWhile_append_first hx (fun c hc => by
      simp only [List.head?_cons, Option.some.injEq] at hc
      subst hc; decide)
  have h2 : (x ++ ('@' :: (y ++ '.' :: (z ++ r)))).drop x.length =
      '@' :: (y ++ '.' :: (z ++ r)) := List.drop_left x _
  have h3 : (y ++ '.' :: (z ++ r)).takeWhile isAChar =
      y ++ '.' :: (z ++ r.takeWhile isAChar) := by
    rw [takeWhile_append_all hy]
    congr 1
    rw [List.takeWhile_cons, if_pos (by decide)]
    rw [takeWhile_append_all hzA]
  obtain ⟨zc, zt, hzc⟩ : ∃ zc zt, z = zc :: zt := by
    cases z with
    | nil => exact absurd rfl hzne
    | cons a b => exact ⟨a, b, rfl⟩
  have hylen : 1 ≤ y.length := List.length_pos.mpr hyne
  have hget1 : (y ++ '.' :: (z ++ r.takeWhile isAChar)).get? y.length =
      some '.' := by
    rw [List.get?_append_right (le_refl _)]
    simp
  have hget2 : (y ++ '.' :: (z ++ r.takeWhile isAChar)).get? (y.length + 1) =
      some zc := by
    rw [List.get?_append_right (by omega)]
    have : y.length + 1 - y.length = 1 := by omega
    rw [this, hzc]
    simp
  have hP : (decide (1 ≤ y.length) &&
      ((y ++ '.' :: (z ++ r.takeWhile isAChar)).get? y.length == some '.') &&
      (match (y ++ '.' :: (z ++ r.takeWhile isAChar)).get? (y.length + 1) with
       | some c => isWordChar c
       | none => false)) = true := by
    rw [hget1, hget2]
    simp only [Bool.and_eq_true, beq_self_eq_true, decide_eq_true_eq]
    refine ⟨⟨hylen, trivial⟩, ?_⟩
    exact hz zc (by rw [hzc]; simp)
  have hmem : y.length ∈
      (List.range ((y ++ '.' :: (z ++ r.takeWhile isAChar)).length + 1)).reverse := by
    rw [List.mem_reverse, List.mem_range]
    rw [List.length_append]
    omega
  have hfind : ((List.range
      ((y ++ '.' :: (z ++ r.takeWhile isAChar)).length + 1)).reverse.find?
      (fun i => decide (1 ≤ i) &&
        ((y ++ '.' :: (z ++ r.takeWhile isAChar)).get? i == some '.') &&
        (match (y ++ '.' :: (z ++ r.takeWhile isAChar)).get? (i + 1) with
         | some c => isWordChar c
         | none => false))).isSome :=
    List.find?_isSome.mpr ⟨y.length, hmem, hP⟩
  obtain ⟨i, hi⟩ := Option.isSome_iff_exists.mp hfind
  simp only [matchEmailAt, h1, h2, if_neg hxne, h3, hi]
  simp

lemma findEmail_none : ∀ {l : List Char}, findEmail l = none →
    ∀ p, matchEmailAt (l.drop p) = none := by
  intro l
  induction l with
  | nil => intro _ p; rw [List.drop_nil]; exact matchEmailAt_nil
  | cons c t ih =>
    intro h p
    simp only [findEmail] at h
    cases hm : matchEmailAt (c :: t) with
    | some m => rw [hm] at h; simp at h
    | none =>
      rw [hm] at h
      have ht : findEmail t = none := Option.map_eq_none'.mp h
      cases p with
      | zero => simpa using hm
      | succ p' => rw [List.drop_succ_cons]; exact ih ht p'

lemma findEmail_some_at : ∀ {l : List Char} {s n : Nat},
    findEmail l = some (s, n) →
    matchEmailAt (l.drop s) = some n ∧
      ∀ p, p < s → matchEmailAt (l.drop p) = none := by
  intro l
  induction l with
  | nil => intro s n h; simp [findEmail] at h
  | cons c t ih =>
    intro s n h
    simp only [findEmail] at h
    cases hm : matchEmailAt (c :: t) with
    | some m =>
      rw [hm] at h
      simp only [Option.some.injEq, Prod.mk.injEq] at h
      obtain ⟨hs, hn⟩ := h
      refine ⟨?_, ?_⟩
      · rw [← hs, List.drop_zero, hm, hn]
      · intro p hp; omega
    | none =>
      rw [hm] at h
      obtain ⟨⟨s', n'⟩, ht, hmap⟩ := Option.map_eq_some'.mp h
      simp only [Prod.mk.injEq] at hmap
      obtain ⟨hs, hn⟩ := hmap
      obtain ⟨ih1, ih2⟩ := ih ht
      refine ⟨?_, ?_⟩
      · rw [← hs, List.drop_succ_cons, ← hn]; exact ih1
      · intro p hp
        cases p with
        | zero => simpa using hm
        | succ p' => rw [List.drop_succ_cons]; exact ih2 p' (by omega)

/-- After the email substitution pass, no email substring remains. -/
lemma subEmails_noEmail : ∀ (fuel : Nat) (l : List Char), l.length ≤ fuel →
    ¬ containsEmail (subEmails fuel l) := by
  intro fuel
  induction fuel with
  | zero =>
    intro l hl
    have hnil : l = [] := List.length_eq_zero.mp (Nat.le_zero.mp hl)
    subst hnil
    simpa [subEmails] using noEmail_nil
  | succ fuel ih =>
    intro l hl
    cases hf : findEmail l with
    | none =>
      have hout : subEmails (fuel + 1) l = l := by simp [subEmails, hf]
      rw [hout]
      rintro ⟨pre, b, post, heq, hb⟩
      have hdrop : l.drop pre.length = b ++ post := by
        rw [heq, List.append_assoc, List.drop_left]
      exact matchEmailAt_complete hb
        (by rw [← hdrop]; exact findEmail_none hf pre.length)
    | some sn =>
      obtain ⟨s, n⟩ := sn
      obtain ⟨hat_s, hbefore⟩ := findEmail_some_at hf
      have hn1 : 1 ≤ n := matchEmailAt_pos hat_s
      have hout : subEmails (fuel + 1) l =
          l.take s ++ (str "[EMAIL REDACTED]" ++
            subEmails fuel (l.drop (s + n))) := by
        simp [subEmails, hf, List.append_assoc]
      rw [hout]
      apply noEmail_splice
      · rintro ⟨pre, b, post, heq, hb⟩
        have hbne : b ≠ [] := (email_chars hb).2.2
        have hplt : pre.length < s := by
          have hlen := congrArg List.length heq
          rw [List.length_append, List.length_append] at hlen
          have hle : (l.take s).length ≤ s := List.length_take_le s l
          have hbl : 1 ≤ b.length := List.length_pos.mpr hbne
          omega
        have hdrop : l.drop pre.length = b ++ (post ++ l.drop s) := by
          conv_lhs => rw [← List.take_append_drop s l]
          rw [heq]
          simp only [List.append_assoc]
          rw [List.drop_left]
        exact matchEmailAt_complete hb
          (by rw [← hdrop]; exact hbefore pre.length hplt)
      · exact ih (l.drop (s + n)) (by rw [List.length_drop]; omega)
      · decide
      · intro c hc
        have hc' : '[' = c := by simpa [str] using hc
        subst hc'; decide
      · decide
      · decide

lemma sub_email_addresses_noEmail (l : List Char) :
    ¬ containsEmail (sub_email_addresses l) :=
  subEmails_noEmail l.length l (le_refl _)

/-- The credential substitution pass never re-introduces an email
    substring. -/
lemma subCreds_noEmail : ∀ (fuel : Nat) (l : List Char),
    ¬ containsEmail l → ¬ containsEmail (subCreds fuel l) := by
  intro fuel
  induction fuel with
  | zero => intro l hl; simpa [subCreds] using hl
  | succ fuel ih =>
    intro l hl
    cases hf : findCred l with
    | none => simpa [subCreds, hf] using hl
    | some q =>
      obtain ⟨s, kwLen, j, vlen⟩ := q
      have hout : subCreds (fuel + 1) l =
          l.take (s + kwLen) ++ (str "=[REDACTED]" ++
            subCreds fuel (l.drop (s + (kwLen + j + vlen)))) := by
        simp only [subCreds, hf]
        rw [List.take_add]
        rw [(by decide : str "=[REDACTED]" = '=' :: str "[REDACTED]")]
        simp [List.append_assoc]
      rw [hout]
      apply noEmail_splice
      · intro hc; exact hl (containsEmail_of_take hc)
      · exact ih _ (fun hc => hl (containsEmail_of_drop hc))
      · decide
      · intro c hc
        have hc' : '=' = c := by simpa [str] using hc
        subst hc'; decide
      · decide
      · decide

/-- `_sanitize_message` removes every email substring: the first pass
    removes them, the second never adds one. -/
lemma sanitize_message_noEmail (message : List Char) :
    ¬ containsEmail (sanitize_message message) :=
  subCreds_noEmail _ _ (sub_email_addresses_noEmail message)

/-! ### Credential-pattern facts -/

/-- All characters occurring in the alternation keywords. -/
def KW_CHARS : List Char := KW_LIST.flatten

lemma kw_list_chars : ∀ k ∈ KW_LIST, ∀ x ∈ k, x ∈ KW_CHARS := by decide

lemma kw_facts : (∀ k ∈ KW_LIST, k ≠ [] ∧ k.length ≤ 8) ∧
    (∀ k₁ ∈ KW_LIST, ∀ k₂ ∈ KW_LIST, k₁.head? = k₂.head? → k₁ = k₂) := by
  decide

lemma kw_no_inner : ∀ k₁ ∈ KW_LIST, ∀ off ∈ List.range 9, 1 ≤ off →
    ∀ k₂ ∈ KW_LIST, (k₁.drop off).take k₂.length ≠ k₂ := by decide

lemma kw_not_in_marker : ∀ q ∈ List.range 12, ∀ k ∈ KW_LIST,
    lowerL (((str "=[REDACTED]").drop q).take k.length) ≠ k := by decide

lemma sep_enum {d : Char} (h : isSepChar d = true) :
    d = '=' ∨ d = ':' ∨ d = ' ' ∨ d = '\t' ∨ d = '\n' ∨ d = '\r' ∨
      d = '\x0b' ∨ d = '\x0c' := by
  simp only [isSepChar, isSpaceChar, Bool.or_eq_true, decide_eq_true_eq] at h
  tauto

lemma sep_not_kwchar {d : Char} (h : isSepChar d = true) :
    d.toLower ∉ KW_CHARS := by
  rcases sep_enum h with h | h | h | h | h | h | h | h <;> subst h <;> decide

lemma isSep_of_isSpace {d : Char} (h : isSpaceChar d = true) :
    isSepChar d = true := by
  simp [isSepChar, h]

lemma kwchar_not_marker {d : Char} (h : d.toLower ∈ KW_CHARS) :
    d ≠ '=' ∧ d ≠ '[' ∧ d ≠ ']' ∧ isSepChar d = false := by
  refine ⟨?_, ?_, ?_, ?_⟩
  · rintro rfl; revert h; decide
  · rintro rfl; revert h; decide
  · rintro rfl; revert h; decide
  · cases hx : isSepChar d
    · rfl
    · exact absurd h (sep_not_kwchar hx)

lemma kw_mem_chars {kw : List Char} (hkw : lowerL kw ∈ KW_LIST) {c : Char}
    (hc : c ∈ kw) : c.toLower ∈ KW_CHARS :=
  kw_list_chars _ hkw _ (List.mem_map_of_mem _ hc)

lemma ciHasPrefix_length {kw l : List Char}
    (h : ciHasPrefix kw l = true) : kw.length ≤ l.length := by
  simp only [ciHasPrefix, beq_iff_eq] at h
  have hlen := congrArg List.length h
  rw [lowerL, List.length_map, List.length_take] at hlen
  rcases Nat.le_total kw.length l.length with h' | h'
  · exact h'
  · rw [Nat.min_eq_right h'] at hlen
    omega

lemma ciHasPrefix_head {kw l : List Char} (hne : kw ≠ [])
    (h : ciHasPrefix kw l = true) :
    ∃ c t, l = c :: t ∧ kw.head? = some c.toLower := by
  simp only [ciHasPrefix, beq_iff_eq] at h
  obtain ⟨m, hm⟩ : ∃ m, kw.length = m + 1 :=
    ⟨kw.length - 1, by have := List.length_pos.mpr hne; omega⟩
  cases l with
  | nil =>
    simp only [List.take_nil] at h
    exact absurd h.symm (by simpa [lowerL] using hne)
  | cons c t =>
    rw [hm, List.take_succ_cons] at h
    refine ⟨c, t, rfl, ?_⟩
    rw [← h]
    simp [lowerL]

lemma ciHasPrefix_unique {k₁ k₂ l : List Char}
    (h₁ : k₁ ∈ KW_LIST) (h₂ : k₂ ∈ KW_LIST)
    (p₁ : ciHasPrefix k₁ l = true) (p₂ : ciHasPrefix k₂ l = true) :
    k₁ = k₂ := by
  have hne₁ : k₁ ≠ [] := (kw_facts.1 k₁ h₁).1
  have hne₂ : k₂ ≠ [] := (kw_facts.1 k₂ h₂).1
  obtain ⟨c, t, hl, hh₁⟩ := ciHasPrefix_head hne₁ p₁
  obtain ⟨c', t', hl', hh₂⟩ := ciHasPrefix_head hne₂ p₂
  rw [hl] at hl'
  injection hl' with e1 _
  exact kw_facts.2 k₁ h₁ k₂ h₂ (by rw [hh₁, hh₂, e1])

/-- Inversion of a successful credential match at the head. -/
lemma matchCredAt_some {l : List Char} {kwLen j vlen : Nat}
    (h : matchCredAt l = some (kwLen, j, vlen)) :
    ∃ kwL, kwL ∈ KW_LIST ∧ kwLen = kwL.length ∧
      lowerL (l.take kwLen) = kwL ∧
      1 ≤ j ∧
      (∀ c ∈ (l.drop kwLen).take j, isSepChar c = true) ∧
      (∃ c, (l.drop kwLen).get? j = some c ∧ isSpaceChar c = false) ∧
      vlen = (((l.drop kwLen).drop j).takeWhile
        (fun c => !isSpaceChar c)).length ∧
      (∀ c, ((l.drop kwLen).drop j).get? vlen = some c →
        isSpaceChar c = true) := by
  simp only [matchCredAt] at h
  split at h
  · exact absurd h (by simp)
  next kw hfind =>
    split at h
    next j' hj =>
      simp only [Option.some.injEq, Prod.mk.injEq] at h
      obtain ⟨h1, h2, h3⟩ := h
      subst h1
      subst h2
      subst h3
      have hkwmem : kw ∈ KW_LIST := List.mem_of_find?_eq_some hfind
      have hkwpre : ciHasPrefix kw l = true := by
        have h' := List.find?_some hfind
        exact h'
      have hlow : lowerL (l.take kw.length) = kw := by
        simpa only [ciHasPrefix, beq_iff_eq] using hkwpre
      have hjmem := List.mem_of_find?_eq_some hj
      rw [List.mem_reverse, List.mem_range] at hjmem
      have hjpred : (decide (1 ≤ j') &&
          (match (l.drop kw.length).get? j' with
           | some c => !isSpaceChar c
           | none => false)) = true := by
        have h' := List.find?_some hj
        exact h'
      rw [Bool.and_eq_true] at hjpred
      obtain ⟨hj1, hjm⟩ := hjpred
      have hj1' : 1 ≤ j' := of_decide_eq_true hj1
      obtain ⟨cj, hcj, hcjs⟩ : ∃ cj, (l.drop kw.length).get? j' = some cj ∧
          isSpaceChar cj = false := by
        cases hg : (l.drop kw.length).get? j' with
        | none => rw [hg] at hjm; exact absurd hjm (by simp)
        | some cj =>
          rw [hg] at hjm
          exact ⟨cj, rfl, by simpa using hjm⟩
      refine ⟨kw, hkwmem, rfl, hlow, hj1', ?_, ⟨cj, hcj, hcjs⟩, rfl, ?_⟩
      · intro c hc
        have hrun : l.drop kw.length =
            (l.drop kw.length).takeWhile isSepChar ++
              (l.drop kw.length).dropWhile isSepChar :=
          (List.takeWhile_append_dropWhile isSepChar _).symm
        have hz : j' - ((l.drop kw.length).takeWhile isSepChar).length = 0 := by
          omega
        rw [hrun, List.take_append_eq_append_take, hz, List.take_zero,
          List.append_nil] at hc
        exact List.mem_takeWhile_imp (List.take_subset _ _ hc)
      · intro c hc
        have hmx := takeWhile_maximal hc
        simpa using hmx
    · exact absurd h (by simp)

lemma matchCredAt_nil : matchCredAt [] = none := by decide

/-- Completeness: a keyword-separator-value decomposition at the head
    forces a credential match there. -/
lemma matchCredAt_complete {kw sep rest : List Char}
    (hkw : lowerL kw ∈ KW_LIST)
    (hsepne : sep ≠ []) (hsepc : ∀ c ∈ sep, isSepChar c = true)
    (hrh : ∃ c, rest.head? = some c ∧ isSpaceChar c = false) :
    matchCredAt (kw ++ (sep ++ rest)) ≠ none := by
  have hpre : ciHasPrefix (lowerL kw) (kw ++ (sep ++ rest)) = true := by
    simp only [ciHasPrefix, beq_iff_eq, lowerL, List.length_map]
    rw [List.take_left]
  have hfindS : (KW_LIST.find?
      (fun k => ciHasPrefix k (kw ++ (sep ++ rest)))).isSome :=
    List.find?_isSome.mpr ⟨lowerL kw, hkw, hpre⟩
  obtain ⟨kw₀, hk₀⟩ := Option.isSome_iff_exists.mp hfindS
  have hk₀mem := List.mem_of_find?_eq_some hk₀
  have hk₀pre : ciHasPrefix kw₀ (kw ++ (sep ++ rest)) = true := by
    have h' := List.find?_some hk₀
    exact h'
  have hkeq : kw₀ = lowerL kw := ciHasPrefix_unique hk₀mem hkw hk₀pre hpre
  subst hkeq
  have ht : (kw ++ (sep ++ rest)).drop (lowerL kw).length = sep ++ rest := by
    rw [lowerL, List.length_map]
    exact List.drop_left kw _
  obtain ⟨c, hch, hcs⟩ := hrh
  have hrun : (sep ++ rest).takeWhile isSepChar =
      sep ++ rest.takeWhile isSepChar := takeWhile_append_all hsepc rest
  have hget : (sep ++ rest).get? sep.length = some c := by
    rw [List.get?_append_right (le_refl _), Nat.sub_self, List.get?_zero]
    exact hch
  have hmem : sep.length ∈
      (List.range (((sep ++ rest).takeWhile isSepChar).length + 1)).reverse := by
    rw [List.mem_reverse, List.mem_range, hrun, List.length_append]
    omega
  have hP : (decide (1 ≤ sep.length) &&
      (match (sep ++ rest).get? sep.length with
       | some c => !isSpaceChar c
       | none => false)) = true := by
    rw [hget]
    have h1 : 1 ≤ sep.length := List.length_pos.mpr hsepne
    simp [h1, hcs]
  have hfindJ : (((List.range
      (((sep ++ rest).takeWhile isSepChar).length + 1)).reverse).find?
      (fun j => decide (1 ≤ j) && (match (sep ++ rest).get? j with
        | some c => !isSpaceChar c
        | none => false))).isSome :=
    List.find?_isSome.mpr ⟨sep.length, hmem, hP⟩
  obtain ⟨j, hjv⟩ := Option.isSome_iff_exists.mp hfindJ
  simp only [matchCredAt, hk₀, ht, hjv]
  simp

lemma findCred_none : ∀ {l : List Char}, findCred l = none →
    ∀ p, matchCredAt (l.drop p) = none := by
  intro l
  induction l with
  | nil => intro _ p; rw [List.drop_nil]; exact matchCredAt_nil
  | cons c t ih =>
    intro h p
    simp only [findCred] at h
    cases hm : matchCredAt (c :: t) with
    | some m => rw [hm] at h; simp at h
    | none =>
      rw [hm] at h
      have ht : findCred t = none := Option.map_eq_none'.mp h
      cases p with
      | zero => simpa using hm
      | succ p' => rw [List.drop_succ_cons]; exact ih ht p'

lemma findCred_some_at : ∀ {l : List Char} {s kwLen j vlen : Nat},
    findCred l = some (s, kwLen, j, vlen) →
    matchCredAt (l.drop s) = some (kwLen, j, vlen) ∧
      ∀ p, p < s → matchCredAt (l.drop p) = none := by
  intro l
  induction l with
  | nil => intro s kwLen j vlen h; simp [findCred] at h
  | cons c t ih =>
    intro s kwLen j vlen h
    simp only [findCred] at h
    cases hm : matchCredAt (c :: t) with
    | some m =>
      obtain ⟨a, b, d⟩ := m
      rw [hm] at h
      simp only [Option.some.injEq, Prod.mk.injEq] at h
      obtain ⟨hs, ha, hb, hd⟩ := h
      refine ⟨?_, ?_⟩
      · rw [← hs, List.drop_zero, hm, ha, hb, hd]
      · intro p hp; omega
    | none =>
      rw [hm] at h
      obtain ⟨⟨s', rest'⟩, ht, hmap⟩ := Option.map_eq_some'.mp h
      simp only [Prod.mk.injEq] at hmap
      obtain ⟨hs, hrest⟩ := hmap
      obtain ⟨ih1, ih2⟩ := ih ht
      refine ⟨?_, ?_⟩
      · rw [← hs, List.drop_succ_cons, ← hrest]; exact ih1
      · intro p hp
        cases p with
        | zero => simpa using hm
        | succ p' => rw [List.drop_succ_cons]; exact ih2 p' (by omega)

lemma matchCredAt_space_head {c : Char} {t : List Char}
    (hsp : isSpaceChar c = true) : matchCredAt (c :: t) = none := by
  have hfind : KW_LIST.find? (fun kw => ciHasPrefix kw (c :: t)) = none := by
    rw [List.find?_eq_none]
    intro kw hkwmem hpre
    have hne := (kw_facts.1 kw hkwmem).1
    obtain ⟨c', t', hl, hh⟩ := ciHasPrefix_head hne hpre
    injection hl with e1 _
    have hmemkw : c.toLower ∈ kw := by
      apply List.mem_of_mem_head?
      rw [hh, ← e1]
      simp [Option.mem_def]
    exact sep_not_kwchar (isSep_of_isSpace hsp)
      (kw_list_chars kw hkwmem _ hmemkw)
  simp [matchCredAt, hfind]

lemma subCreds_nil : ∀ fuel : Nat, subCreds fuel [] = [] := by
  intro fuel
  cases fuel with
  | zero => rfl
  | succ fuel => simp [subCreds, findCred]

lemma subCreds_head_space : ∀ {fuel : Nat} {l : List Char} {c : Char},
    l.head? = some c → isSpaceChar c = true →
    (subCreds fuel l).head? = some c := by
  intro fuel
  induction fuel with
  | zero => intro l c hc _; simpa [subCreds] using hc
  | succ fuel ih =>
    intro l c hc hsp
    obtain ⟨t, hl⟩ : ∃ t, l = c :: t := by
      cases l with
      | nil => simp at hc
      | cons a t =>
        simp only [List.head?_cons, Option.some.injEq] at hc
        exact ⟨t, by rw [hc]⟩
    subst hl
    cases hf : findCred (c :: t) with
    | none => simp [subCreds, hf]
    | some q =>
      obtain ⟨s, kwLen, j, vlen⟩ := q
      have hs1 : 1 ≤ s := by
        by_contra h0
        have hs0 : s = 0 := by omega
        subst hs0
        have hmc := (findCred_some_at hf).1
        rw [List.drop_zero, matchCredAt_space_head hsp] at hmc
        exact Option.noConfusion hmc
      obtain ⟨s', hs'⟩ : ∃ s', s = s' + 1 := ⟨s - 1, by omega⟩
      subst hs'
      simp [subCreds, hf, List.take_succ_cons]

lemma decomp_dropOne {out : List Char} {p : Nat} {a b : List Char}
    (h : out.drop p = a ++ b) : out.drop (p + a.length) = b := by
  have h' : (out.drop p).drop a.length = b := by
    rw [h]; exact List.drop_left a b
  rw [List.drop_drop] at h'
  exact h'

lemma decomp_get {out : List Char} {p : Nat} {a b : List Char}
    (h : out.drop p = a ++ b) {i : Nat} (hi : i < a.length) :
    out.get? (p + i) = a.get? i := by
  have h1 : (out.drop p).get? i = out.get? (p + i) := by
    rw [List.get?_drop]
  rw [← h1, h, List.get?_append hi]

/-- The replacement value placed by the credential substitution: a
    maximal non-space run that reads back as the redaction marker. -/
lemma redacted_value {V : List Char}
    (hV : V.head? = none ∨ ∃ c, V.head? = some c ∧ isSpaceChar c = true) :
    (str "[REDACTED]" ++ V).takeWhile (fun c => !isSpaceChar c) =
      str "[REDACTED]" := by
  apply takeWhile_append_first
  · decide
  · intro c hc
    rcases hV with hV | ⟨c₀, hc₀, hsp⟩
    · rw [hV] at hc; exact absurd hc (by simp)
    · rw [hc₀] at hc
      injection hc with e
      rw [← e, hsp]
      rfl

/-- Credential safety of a string: wherever a keyword is followed by a
    nonempty separator run and then a non-space character, the non-space
    value that follows is exactly the redaction marker. -/
def credSafe (out : List Char) : Prop :=
  ∀ p kw sep rest, out.drop p = kw ++ (sep ++ rest) →
    lowerL kw ∈ KW_LIST → sep ≠ [] → (∀ c ∈ sep, isSepChar c = true) →
    (∃ c, rest.head? = some c ∧ isSpaceChar c = false) →
    rest.takeWhile (fun c => !isSpaceChar c) = str "[REDACTED]"

/-- Main credential-redaction invariant of the substitution pass. -/
lemma subCreds_credSafe : ∀ (fuel : Nat) (l : List Char), l.length ≤ fuel →
    credSafe (subCreds fuel l) := by
  intro fuel
  induction fuel with
  | zero =>
    intro l hl
    have hnil : l = [] := List.length_eq_zero.mp (Nat.le_zero.mp hl)
    subst hnil
    intro p kw sep rest hdec hkw hsepne hsepc hrh
    exfalso
    simp only [subCreds, List.drop_nil] at hdec
    have hsym := hdec.symm
    simp only [List.append_eq_nil] at hsym
    exact hsepne hsym.2.1
  | succ fuel ih =>
    intro l hl
    cases hf : findCred l with
    | none =>
      have hout : subCreds (fuel + 1) l = l := by simp [subCreds, hf]
      rw [hout]
      intro p kw sep rest hdec hkw hsepne hsepc hrh
      exfalso
      exact matchCredAt_complete hkw hsepne hsepc hrh
        (by rw [← hdec]; exact findCred_none hf p)
    | some q =>
      obtain ⟨s, kwLen, j, vlen⟩ := q
      obtain ⟨hat, hbefore⟩ := findCred_some_at hf
      obtain ⟨kwL, hkwLmem, hkwlen, hlowK, hj1, hsepK, ⟨cj, hcj, hcjns⟩,
        hvlen, hvmax⟩ := matchCredAt_some hat
      have hkwLne : kwL ≠ [] := (kw_facts.1 kwL hkwLmem).1
      have hkwL8 : kwL.length ≤ 8 := (kw_facts.1 kwL hkwLmem).2
      have hkl1 : 1 ≤ kwLen := by
        rw [hkwlen]; exact List.length_pos.mpr hkwLne
      have hKlen : ((l.drop s).take kwLen).length = kwLen := by
        have hcl := congrArg List.length hlowK
        rw [lowerL, List.length_map] at hcl
        rw [hcl, hkwlen]
      have hulen : s + kwLen ≤ l.length := by
        have h1 : ((l.drop s).take kwLen).length =
            min kwLen (l.length - s) := by
          rw [List.length_take, List.length_drop]
        rw [hKlen] at h1
        rcases Nat.le_total kwLen (l.length - s) with h' | h'
        · omega
        · rw [Nat.min_eq_right h'] at h1; omega
      obtain ⟨u, hu⟩ : ∃ u, u = s + kwLen := ⟨_, rfl⟩
      obtain ⟨M, hMdef⟩ : ∃ m, m = str "=[REDACTED]" := ⟨_, rfl⟩
      obtain ⟨tail, htaildef⟩ : ∃ t, t = l.drop (s + (kwLen + j + vlen)) :=
        ⟨_, rfl⟩
      obtain ⟨V, hVdef⟩ : ∃ v, v = subCreds fuel tail := ⟨_, rfl⟩
      obtain ⟨out, houtdef⟩ : ∃ o, o = l.take u ++ (M ++ V) := ⟨_, rfl⟩
      have hMcons : M = '=' :: str "[REDACTED]" := by rw [hMdef]; decide
      have hMlen : M.length = 11 := by rw [hMdef]; decide
      have hout : subCreds (fuel + 1) l = out := by
        rw [houtdef, hu, hMdef, hVdef, htaildef]
        simp only [subCreds, hf]
        rw [List.take_add,
          (by decide : str "=[REDACTED]" = '=' :: str "[REDACTED]")]
        simp [List.append_assoc]
      rw [hout]
      have hUlen : (l.take u).length = u := by
        rw [List.length_take]
        exact Nat.min_eq_left (by omega)
      have F1 : ∀ i, i < u → out.get? i = l.get? i := by
        intro i hi
        rw [houtdef, List.get?_append (by rw [hUlen]; exact hi)]
        exact List.get?_take hi
      have F2 : out.drop u = M ++ V := by
        rw [houtdef]
        have hdl := List.drop_left (l.take u) (M ++ V)
        rwa [hUlen] at hdl
      have F3 : out.get? u = some '=' := by
        have h1 : (out.drop u).get? 0 = out.get? (u + 0) := by
          rw [List.get?_drop]
        rw [Nat.add_zero] at h1
        rw [← h1, F2, hMcons]
        rfl
      have F4 : out.get? (u + 10) = some ']' := by
        have h1 : (out.drop u).get? 10 = out.get? (u + 10) := by
          rw [List.get?_drop]
        rw [← h1, F2, List.get?_append (by rw [hMlen]; omega)]
        rw [hMdef]; decide
      have F5 : out.drop (u + 11) = V := by
        have h1 : out.drop (u + 11) = (out.drop u).drop 11 := by
          rw [List.drop_drop]
        rw [h1, F2]
        exact List.drop_left' hMlen
      have FW : ∀ q n, q + n ≤ u → (out.drop q).take n = (l.drop q).take n := by
        intro q n hqn
        have hA' : out.take (q + n) = l.take (q + n) := by
          rw [houtdef, List.take_append_eq_append_take, hUlen,
            Nat.sub_eq_zero_of_le hqn, List.take_zero, List.append_nil,
            List.take_take, Nat.min_eq_left hqn]
        have hB' : (out.take (q + n)).drop q = (out.drop q).take n := by
          rw [List.drop_take]
          congr 1
          omega
        have hC' : (l.take (q + n)).drop q = (l.drop q).take n := by
          rw [List.drop_take]
          congr 1
          omega
        rw [← hB', hA', hC']
      have hlast : ∃ d, l.get? (u - 1) = some d ∧ isSepChar d = false := by
        cases hK : ((l.drop s).take kwLen).get? (kwLen - 1) with
        | none =>
          exfalso
          have hlen := List.get?_eq_none.mp hK
          rw [hKlen] at hlen
          omega
        | some d =>
          refine ⟨d, ?_, ?_⟩
          · have h1 : ((l.drop s).take kwLen).get? (kwLen - 1) =
                (l.drop s).get? (kwLen - 1) := List.get?_take (by omega)
            have h2 : (l.drop s).get? (kwLen - 1) =
                l.get? (s + (kwLen - 1)) := by
              rw [List.get?_drop]
            rw [h1, h2] at hK
            rw [show u - 1 = s + (kwLen - 1) from by omega]
            exact hK
          · have hdm : d ∈ (l.drop s).take kwLen := List.get?_mem hK
            have hdl : d.toLower ∈ kwL := by
              rw [← hlowK]
              exact List.mem_map_of_mem _ hdm
            exact (kwchar_not_marker (kw_list_chars kwL hkwLmem _ hdl)).2.2.2
      have hWdef : (((l.drop s).drop kwLen).drop j).drop vlen = tail := by
        rw [htaildef]
        rw [List.drop_drop, List.drop_drop, List.drop_drop]
        congr 1
        omega
      have hth : tail.head? = (((l.drop s).drop kwLen).drop j).get? vlen := by
        rw [← hWdef, ← List.get?_zero, List.get?_drop, Nat.add_zero]
      have hVhead : V.head? = none ∨
          ∃ c, V.head? = some c ∧ isSpaceChar c = true := by
        cases hh : tail.head? with
        | none =>
          left
          have htn : tail = [] := List.head?_eq_none_iff.mp hh
          rw [hVdef, htn, subCreds_nil]
          rfl
        | some c =>
          right
          have hsp : isSpaceChar c = true := by
            apply hvmax
            rw [← hth]
            exact hh
          refine ⟨c, ?_, hsp⟩
          rw [hVdef]
          exact subCreds_head_space hh hsp
      intro p kw sep rest hdec hkw hsepne hsepc hrh
      have hkwne : kw ≠ [] := by
        intro h0
        rw [h0] at hkw
        simp only [lowerL, List.map_nil] at hkw
        exact absurd hkw (by decide)
      have hkw1 : 1 ≤ kw.length := List.length_pos.mpr hkwne
      have hkwchars : ∀ c ∈ kw, c.toLower ∈ KW_CHARS := fun c hc =>
        kw_mem_chars hkw hc
      have hdec₂ : out.drop (p + kw.length) = sep ++ rest := decomp_dropOne hdec
      have hdec₃ : out.drop (p + kw.length + sep.length) = rest :=
        decomp_dropOne hdec₂
      by_cases hA : u + 11 ≤ p
      · -- the decomposition lies inside the recursively sanitized tail
        have hdropV : out.drop p = V.drop (p - (u + 11)) := by
          have h1 : out.drop p = (out.drop (u + 11)).drop (p - (u + 11)) := by
            rw [List.drop_drop]
            congr 1
            omega
          rw [h1, F5]
        have htail_len : tail.length ≤ fuel := by
          rw [htaildef, List.length_drop]
          omega
        have hcs := ih tail htail_len
        exact hcs (p - (u + 11)) kw sep rest
          (by rw [← hVdef, ← hdropV]; exact hdec) hkw hsepne hsepc hrh
      · have hAp : p < u + 11 := Nat.lt_of_not_le hA
        rcases lt_trichotomy (p + kw.length) u with hlt | heq | hgt
        · -- keyword ends strictly before the marker
          by_cases hE : p + kw.length + sep.length < u
          · -- everything sits in the source window: contradiction with
            -- leftmostness or keyword structure
            exfalso
            have hn : p + (kw.length + sep.length) ≤ u := by omega
            have hsrc : (l.drop p).take (kw.length + sep.length) =
                kw ++ sep := by
              rw [← FW p (kw.length + sep.length) hn, hdec,
                ← List.append_assoc,
                show kw.length + sep.length = (kw ++ sep).length from
                  (List.length_append _ _).symm]
              exact List.take_left _ _
            have hdd : (l.drop p).drop (kw.length + sep.length) =
                l.drop (p + kw.length + sep.length) := by
              rw [List.drop_drop]; congr 1; omega
            have hldec : l.drop p =
                kw ++ (sep ++ l.drop (p + kw.length + sep.length)) := by
              conv_lhs => rw [← List.take_append_drop
                (kw.length + sep.length) (l.drop p)]
              rw [hsrc, hdd, List.append_assoc]
            have hrhl : ∃ c,
                (l.drop (p + kw.length + sep.length)).head? = some c ∧
                  isSpaceChar c = false := by
              obtain ⟨c, hch, hcs'⟩ := hrh
              refine ⟨c, ?_, hcs'⟩
              have h1 : (l.drop (p + kw.length + sep.length)).head? =
                  l.get? (p + kw.length + sep.length) := by
                rw [← List.get?_zero, List.get?_drop, Nat.add_zero]
              have h3 : rest.head? =
                  out.get? (p + kw.length + sep.length) := by
                rw [← hdec₃, ← List.get?_zero, List.get?_drop, Nat.add_zero]
              rw [h1, ← F1 _ (by omega), ← h3]
              exact hch
            rcases lt_trichotomy p s with hps | hps | hps
            · have hcomp := matchCredAt_complete hkw hsepne hsepc hrhl
              rw [← hldec] at hcomp
              exact hcomp (hbefore p hps)
            · have hlenlow : (lowerL kw).length = kw.length := by
                rw [lowerL, List.length_map]
              have hpre1 : ciHasPrefix (lowerL kw) (l.drop p) = true := by
                simp only [ciHasPrefix, beq_iff_eq, hlenlow]
                rw [hldec]
                exact congrArg lowerL (List.take_left _ _)
              have hpre2 : ciHasPrefix kwL (l.drop p) = true := by
                simp only [ciHasPrefix, beq_iff_eq]
                rw [hps, ← hkwlen]
                exact hlowK
              have hkweq := ciHasPrefix_unique hkw hkwLmem hpre1 hpre2
              have hlen2 : kw.length = kwLen := by
                rw [← hlenlow, hkweq, ← hkwlen]
              omega
            · -- keyword strictly inside the matched keyword occurrence
              have hoff1 : 1 ≤ p - s := by omega
              have hoffb : (p - s) + kw.length < kwLen := by omega
              have hsrckw : (l.drop p).take kw.length = kw := by
                rw [hldec]
                exact List.take_left _ _
              have hdropdrop : l.drop p = (l.drop s).drop (p - s) := by
                rw [List.drop_drop]; congr 1; omega
              have hKdt : ((l.drop s).take kwLen).drop (p - s) =
                  ((l.drop s).drop (p - s)).take (kwLen - (p - s)) :=
                List.drop_take _ _ _
              have hkw_in : kw =
                  (((l.drop s).take kwLen).drop (p - s)).take kw.length := by
                rw [hKdt, List.take_take, Nat.min_eq_left (by omega),
                  ← hdropdrop, hsrckw]
              have hmapK : ((l.drop s).take kwLen).map Char.toLower = kwL :=
                hlowK
              have hlow2 : lowerL kw =
                  (kwL.drop (p - s)).take kw.length := by
                conv_lhs => rw [hkw_in]
                rw [lowerL, List.map_take, List.map_drop, hmapK]
              have hlenlow : (lowerL kw).length = kw.length := by
                rw [lowerL, List.length_map]
              have hmemrange : (p - s) ∈ List.range 9 := by
                rw [List.mem_range]
                omega
              exact kw_no_inner kwL hkwLmem (p - s) hmemrange hoff1
                (lowerL kw) hkw (by rw [hlenlow, ← hlow2])
          · -- the separator run would cover the last keyword letter
            exfalso
            have hi : (u - 1) - (p + kw.length) < sep.length := by omega
            have hgs : sep.get? ((u - 1) - (p + kw.length)) =
                out.get? (u - 1) := by
              have h1 := decomp_get hdec₂ hi
              rw [← h1]
              congr 1
              omega
            obtain ⟨d, hd, hdsep⟩ := hlast
            rw [← F1 (u - 1) (by omega)] at hd
            rw [hd] at hgs
            have hdm : d ∈ sep := List.get?_mem hgs
            rw [hsepc d hdm] at hdsep
            exact Bool.noConfusion hdsep
        · -- the keyword ends exactly at the marker: the value IS the marker
          have hsr : sep ++ rest = M ++ V := by
            have h1 : out.drop (p + kw.length) = out.drop u := by rw [heq]
            rw [hdec₂, F2] at h1
            exact h1
          rw [hMcons, List.cons_append] at hsr
          obtain ⟨s0, srest, hsep⟩ : ∃ s0 srest, sep = s0 :: srest := by
            cases sep with
            | nil => exact absurd rfl hsepne
            | cons a t => exact ⟨a, t, rfl⟩
          subst hsep
          rw [List.cons_append] at hsr
          injection hsr with he1 he2
          cases srest with
          | nil =>
            simp only [List.nil_append] at he2
            rw [he2]
            exact redacted_value hVhead
          | cons s1 srest₂ =>
            exfalso
            rw [(by decide : str "[REDACTED]" = '[' :: str "REDACTED]"),
              List.cons_append] at he2
            injection he2 with hf1 _
            have hs1 := hsepc s1 (by simp)
            rw [hf1] at hs1
            exact absurd hs1 (by decide)
        · exfalso
          by_cases hC : p < u
          · -- keyword would contain the '=' of the marker
            have hiu : u - p < kw.length := by omega
            have hgu := decomp_get hdec hiu
            rw [show p + (u - p) = u from by omega, F3] at hgu
            have hmem : '=' ∈ kw := List.get?_mem hgu.symm
            have hbadc := hkwchars '=' hmem
            revert hbadc
            decide
          · have hpu : u ≤ p := Nat.le_of_not_lt hC
            by_cases hD : p + kw.length ≤ u + 11
            · -- keyword inside the marker text: impossible
              have hdropM : out.drop p = M.drop (p - u) ++ V := by
                have h1 : out.drop p = (out.drop u).drop (p - u) := by
                  rw [List.drop_drop]; congr 1; omega
                have hz2 : p - u - M.length = 0 := by
                  rw [hMlen]; omega
                rw [h1, F2, List.drop_append_eq_append_drop, hz2,
                  List.drop_zero]
              have hkwM : kw = (M.drop (p - u)).take kw.length := by
                have h1 : (out.drop p).take kw.length = kw := by
                  rw [hdec]
                  exact List.take_left _ _
                rw [hdropM, List.take_append_eq_append_take] at h1
                have hz : kw.length - (M.drop (p - u)).length = 0 := by
                  rw [List.length_drop, hMlen]
                  omega
                rw [hz, List.take_zero, List.append_nil] at h1
                exact h1.symm
              have hlenlow : (lowerL kw).length = kw.length := by
                rw [lowerL, List.length_map]
              exact kw_not_in_marker (p - u) (by rw [List.mem_range]; omega)
                (lowerL kw) hkw (by rw [hlenlow, ← hMdef, ← hkwM])
            · -- keyword would contain the closing ']' of the marker
              have hiu : (u + 10) - p < kw.length := by omega
              have hgu := decomp_get hdec hiu
              rw [show p + ((u + 10) - p) = u + 10 from by omega, F4] at hgu
              have hmem : ']' ∈ kw := List.get?_mem hgu.symm
              have hbadc := hkwchars ']' hmem
              revert hbadc
              decide

lemma sanitize_message_credSafe (message : List Char) :
    credSafe (sanitize_message message) :=
  subCreds_credSafe _ _ (le_refl _)

/-- C8: for every error kind and every message handed to a collector
    error constructor, the stored message is the sanitized one; it
    contains no substring matching the email pattern
    `[\w\.-]+@[\w\.-]+\.\w+` (each was replaced by the redaction
    marker), and wherever a keyword of
    `password|token|secret|key|auth` (case-insensitively) is followed
    by a nonempty `[=:\s]` separator run and a non-space value, that
    value is exactly the marker `[REDACTED]`; two concrete runs show an
    email and a credential value being replaced by their markers. -/
theorem C8_error_message_redaction :
    ∀ (kind : ErrKind) (message : List Char),
      (mkError kind message).msg = sanitize_message message ∧
      ¬ containsEmail (mkError kind message).msg ∧
      credSafe (mkError kind message).msg ∧
      (mkError kind (str "contact user@example.com now")).msg =
        str "contact [EMAIL REDACTED] now" ∧
      (mkError kind (str "password=hunter2")).msg =
        str "password=[REDACTED]" := by
  intro kind message
  refine ⟨rfl, sanitize_message_noEmail message,
    sanitize_message_credSafe message, ?_, ?_⟩
  · show sanitize_message (str "contact user@example.com now") =
      str "contact [EMAIL REDACTED] now"
    decide
  · show sanitize_message (str "password=hunter2") =
      str "password=[REDACTED]"
    decide

end Icons8
